import Mathlib

/-!
Verification of the strategy-parameterized self-balancing binary search tree
(`src/tree.rs`, `src/tree/{node,ops,inspect}.rs`, `src/redblack.rs`,
`src/unbalanced.rs`, plus the older standalone AVL module `src/avl.rs`).

The Rust code stores nodes in `Rc<RefCell<..>>` cells with owning child links
and a non-owning parent back-reference.  The shallow embedding uses a plain
inductive tree for the owned structure; the parent chain that the imperative
code walks with `get_parent()` is represented explicitly as a zipper context
(a list of `Frame`s, innermost ancestor first).  Re-pointing a parent's child
link to a new subtree root — which `bst_rotate` does through the grandparent
and `bst_pop` does through the passed-in joint — is, in zipper form, simply
"the focused subtree is replaced and the context is unchanged".
-/

namespace Project2

/-- Direction enum `TreePath` from `src/tree.rs` (`Left` / `Right`). -/
inductive TreePath : Type
| Left
| Right
deriving DecidableEq, Repr

/-- `TreePath::reflect`: returns the opposite direction. -/
def TreePath.reflect : TreePath → TreePath
| .Left => .Right
| .Right => .Left

/-- Rust's `Ord::cmp` on a totally ordered key type. -/
def cmp3 {α : Type} [LinearOrder α] (a b : α) : Ordering :=
  if a < b then .lt else if b < a then .gt else .eq

namespace BST

/-- A tree: either empty (`Tree(None)`) or a `TreeNode` with key, the cached
`height` and `leaves` counters, the policy-owned balance value, and the two
owned children.  Mirrors `TreeNode` from `src/tree/node.rs` wrapped in the
`Tree` handle of `src/tree.rs`. -/
inductive BTree (α β : Type) : Type
| nil : BTree α β
| node (l : BTree α β) (key : α) (height leaves : Nat) (bal : β) (r : BTree α β) : BTree α β
deriving DecidableEq, Repr

variable {α β : Type}

/-- `TreeNode::get_child` composed with the `map_or(0, height)` reads:
the cached height of a possibly-absent subtree (0 for absent). -/
def cachedHeight : BTree α β → Nat
| .nil => 0
| .node _ _ h _ _ _ => h

/-- Cached leaf count of a possibly-absent subtree (0 for absent),
as read by `update_leaves` through `map_or(0, get_leaves)`. -/
def cachedLeaves : BTree α β → Nat
| .nil => 0
| .node _ _ _ lv _ _ => lv

/-- `TreeNode::get_child(pos)`. -/
def getChild : BTree α β → TreePath → BTree α β
| .nil, _ => .nil
| .node l _ _ _ _ _, .Left => l
| .node _ _ _ _ _ r, .Right => r

/-- Writing through `TreeNode::get_joint(pos)`: replace the child at a path. -/
def setChild : BTree α β → TreePath → BTree α β → BTree α β
| .nil, _, _ => .nil
| .node _ k h lv b r, .Left, c => .node c k h lv b r
| .node l k h lv b _, .Right, c => .node l k h lv b c

/-- Root key of a nonempty tree. -/
def rootKey : BTree α β → Option α
| .nil => none
| .node _ k _ _ _ _ => some k

/-- Root balance value of a nonempty tree. -/
def rootBal : BTree α β → Option β
| .nil => none
| .node _ _ _ _ b _ => some b

/-- `TreeNode::update`: recompute the node's own cached `leaves`
(`max(1, left.leaves + right.leaves)`, absent child counting 0) and `height`
(`max(left.height, right.height) + 1`) from the children's cached values.
The children themselves are untouched. -/
def updateRoot : BTree α β → BTree α β
| .nil => .nil
| .node l k _ _ b r =>
    .node l k (max (cachedHeight l) (cachedHeight r) + 1)
      (max 1 (cachedLeaves l + cachedLeaves r)) b r

/-- In-order key sequence of a tree (left, key, right) — what the `Display`
impl prints and what the spec's BST invariant is about. -/
def inorder : BTree α β → List α
| .nil => []
| .node l k _ _ _ r => inorder l ++ k :: inorder r

/-- `TreeNode::search(key)`: `None` when the key equals this node's key,
otherwise the direction to continue (`Greater → Right`, `Less → Left`). -/
def nodeSearch [LinearOrder α] (selfKey key : α) : Option TreePath :=
  match cmp3 key selfKey with
  | .eq => none
  | .gt => some .Right
  | .lt => some .Left

/-- `TreeNode::find_placement(child)`: `self.search(&child.key)` with a panic
(here `none`) when the keys match. -/
def findPlacement [LinearOrder α] (selfKey childKey : α) : Option TreePath :=
  nodeSearch selfKey childKey

/-- `bst_search` from `src/tree/ops.rs`: walk down comparing keys;
`true` exactly when a node with the key is reached. -/
def bst_search [LinearOrder α] : BTree α β → α → Bool
| .nil, _ => false
| .node l ky _ _ _ r, k =>
    match cmp3 k ky with
    | .eq => true
    | .lt => bst_search l k
    | .gt => bst_search r k

/-- `TreeNode::replace_key(key)`: panics (`none`) when the new key is
`Less` than the left child's key or `Greater` than the right child's key
(root keys of the current children only); otherwise swaps the key in and
returns the old key together with the rewritten node. -/
def replace_key [LinearOrder α] : BTree α β → α → Option (α × BTree α β)
| .nil, _ => none
| .node l ky h lv b r, k =>
    if (match rootKey l with
        | some lk => cmp3 k lk == Ordering.lt
        | none => false) then none
    else if (match rootKey r with
        | some rk => cmp3 k rk == Ordering.gt
        | none => false) then none
    else some (ky, .node l k h lv b r)

/-- `bst_pop` from `src/tree/ops.rs`: `none` when the node has two children
(the Rust function returns `None`); otherwise the popped `(key, balance)`
pair together with the successor subtree that replaces the node (`prune(Right)`
first, falling back to `prune(Left)`).  The successor's parent re-pointing is
the zipper context of the caller. -/
def bst_pop : BTree α β → Option ((α × β) × BTree α β)
| .nil => none
| .node l k _ _ b r =>
    match l, r with
    | .node _ _ _ _ _ _, .node _ _ _ _ _ _ => none
    | _, _ => some ((k, b), match r with | .nil => l | _ => r)

/-- `bst_rotate` from `src/tree/ops.rs`: rotate around `p` bringing up the
child `x` along `direction`.  `x`'s child `v` along `reflect(direction)`
becomes `p`'s child along `direction`; `p.update()` is called; `p` becomes
`x`'s child along `reflect(direction)`; `x` is returned as the new subtree
root taking `p`'s place under `p`'s former parent (the zipper context).
Note: the source calls `update` on `p` only — `x`'s cached height/leaves are
left as they were.  Panics (`none`) when the child along `direction` is
absent. -/
def bst_rotate : BTree α β → TreePath → Option (BTree α β)
| .nil, _ => none
| .node l k h lv b r, d =>
    match (match d with | .Left => l | .Right => r) with
    | .nil => none
    | .node xl xk xh xlv xb xr =>
        let v := getChild (.node xl xk xh xlv xb xr) d.reflect
        let p' := updateRoot (setChild (.node l k h lv b r) d v)
        some (setChild (.node xl xk xh xlv xb xr) d.reflect p')

/-- `NodeInspector::rotate(case)` from `src/tree/inspect.rs`: when the two
paths differ, first rotate the child at `case.0` by `case.1` (the result is
re-attached in the same child slot), then rotate the node itself by
`case.0`. -/
def inspectorRotate (t : BTree α β) (case : TreePath × TreePath) : Option (BTree α β) :=
  if case.1 ≠ case.2 then
    match getChild t case.1 with
    | .nil => none
    | c =>
        match bst_rotate c case.2 with
        | none => none
        | some c' => bst_rotate (setChild t case.1 c') case.1
  else
    bst_rotate t case.1

/-- `NodeOffset` from `src/tree/inspect.rs`: the continuation instruction a
policy returns from a rebalance callback. -/
inductive NodeOffset : Type
| Root
| Parent
| Child (d : TreePath)
deriving DecidableEq, Repr

/-- One ancestor on the parent chain: the direction the focus hangs on, the
ancestor's key, its (possibly stale) cached height/leaves, its balance value
and the sibling subtree.  This is the zipper rendering of the non-owning
parent back-references. -/
structure Frame (α β : Type) : Type where
  dir : TreePath
  key : α
  height : Nat
  leaves : Nat
  bal : β
  sib : BTree α β
deriving DecidableEq, Repr

abbrev Ctx (α β : Type) := List (Frame α β)

/-- Re-attach a focused subtree under its innermost ancestor (no cache
refresh — the ancestor keeps its stored, possibly stale, counters). -/
def assemble (f : Frame α β) (m : BTree α β) : BTree α β :=
  match f.dir with
  | .Left => .node m f.key f.height f.leaves f.bal f.sib
  | .Right => .node f.sib f.key f.height f.leaves f.bal m

/-- Zip all the way to the root without refreshing caches. -/
def plug (t : BTree α β) : Ctx α β → BTree α β
| [] => t
| f :: ctx => plug (assemble f t) ctx

/-- Zip all the way to the root calling `update()` on every ancestor — the
"walk any remaining ancestors purely to refresh height/leaves" phase at the
end of `bst_insert` / `bst_delete`. -/
def plugUpdate (t : BTree α β) : Ctx α β → BTree α β
| [] => t
| f :: ctx => plugUpdate (updateRoot (assemble f t)) ctx

/-- The `TreeBalance` trait of `src/tree/inspect.rs` as a record of the
policy's callbacks.  The callbacks receive the focused subtree (what the
`NodeInspector` wraps), the `inspect_is_root` answer, and the path
argument(s); they return the possibly-rewritten subtree and a continuation,
or `none` for a panic inside the callback. -/
structure TreeBalance (α β : Type) : Type where
  new : β
  new_root : β
  rebalance_insert : Bool → BTree α β → TreePath × TreePath → Option (BTree α β × NodeOffset)
  rebalance_delete : Bool → BTree α β → TreePath → β → Option (BTree α β × NodeOffset)
  adjust_root : β → β

variable [LinearOrder α]

/-- The rebalance loop of `bst_insert` (`src/tree/ops.rs`).  At each visited
ancestor the policy's `rebalance_insert` runs, then the node's caches are
refreshed; `Root` stops (remaining ancestors only get cache refreshes),
`Parent` re-derives `(ppath, xpath)` one level up via `find_placement`, and
`Child(_)` is `panic!("Should not happen!")`. -/
def insertLoop (P : TreeBalance α β) :
    Ctx α β → BTree α β → TreePath → TreePath → Option (BTree α β)
| ctx, r, ppath, xpath =>
  match P.rebalance_insert ctx.isEmpty r (ppath, xpath) with
  | none => none
  | some (cur, off) =>
      let r' := updateRoot cur
      match off with
      | .Root => some (plugUpdate r' ctx)
      | .Child _ => none
      | .Parent =>
          match ctx with
          | [] => some r'
          | f :: ctx' =>
              match rootKey r' with
              | none => none
              | some ck =>
                  match findPlacement f.key ck with
                  | none => none
                  | some pl => insertLoop P ctx' (assemble f r') pl ppath

/-- Descent phase of `bst_insert`: walk down comparing keys, keeping the
parent chain as a zipper.  Finding the key mid-descent returns the original
root unchanged (duplicate insert is a silent no-op).  Reaching an empty slot
attaches a fresh `Red`-style non-root node (`TreeBalance::new`), refreshes
the parent, and — exactly when a grandparent exists — enters the rebalance
loop with `(placement-of-parent, insertion path)`.  An empty context at an
empty slot is the empty-tree case: a fresh root node via `new_root`. -/
def insGo (P : TreeBalance α β) (k : α) :
    BTree α β → Ctx α β → BTree α β → Option (BTree α β)
| .nil, ctx, _ =>
    match ctx with
    | [] => some (.node .nil k 1 1 P.new_root .nil)
    | f :: ctx' =>
        let p' := updateRoot (assemble f (.node .nil k 1 1 P.new .nil))
        match ctx' with
        | [] => some p'
        | g :: ctx'' =>
            match rootKey p' with
            | none => none
            | some pk =>
                match findPlacement g.key pk with
                | none => none
                | some pl => insertLoop P ctx'' (assemble g p') pl f.dir
| .node l ky h lv b r, ctx, t0 =>
    match cmp3 k ky with
    | .eq => some t0
    | .lt => insGo P k l (⟨.Left, ky, h, lv, b, r⟩ :: ctx) t0
    | .gt => insGo P k r (⟨.Right, ky, h, lv, b, l⟩ :: ctx) t0

/-- `bst_insert` from `src/tree/ops.rs` (driven through `Tree::insert`). -/
def bst_insert (P : TreeBalance α β) (t : BTree α β) (k : α) : Option (BTree α β) :=
  insGo P k t [] t

/-- The rebalance loop of `bst_delete`: run `rebalance_delete` (the popped
node's balance is threaded through unchanged), refresh the node, then follow
the continuation — `Root` stops and the remaining ancestors get cache
refreshes, `Parent` moves up via `find_placement`, `Child(path)` re-anchors
at that child (panicking, `none`, when it is absent).  Fuel bounds the
Child/Parent bouncing an arbitrary policy could do. -/
def deleteLoop (P : TreeBalance α β) :
    Nat → BTree α β → TreePath → β → Ctx α β → Option (BTree α β)
| 0, _, _, _, _ => none
| fuel + 1, r, xpath, bal, ctx =>
  match P.rebalance_delete ctx.isEmpty r xpath bal with
  | none => none
  | some (cur, off) =>
      let r' := updateRoot cur
      match off with
      | .Root => some (plugUpdate r' ctx)
      | .Parent =>
          match ctx with
          | [] => some r'
          | f :: ctx' =>
              match rootKey r' with
              | none => none
              | some ck =>
                  match findPlacement f.key ck with
                  | none => none
                  | some pl => deleteLoop P fuel (assemble f r') pl bal ctx'
      | .Child d =>
          match r' with
          | .nil => none
          | .node l k h lv b r2 =>
              match d with
              | .Left =>
                  match l with
                  | .nil => none
                  | c => deleteLoop P fuel c .Left bal (⟨.Left, k, h, lv, b, r2⟩ :: ctx)
              | .Right =>
                  match r2 with
                  | .nil => none
                  | c => deleteLoop P fuel c .Right bal (⟨.Right, k, h, lv, b, l⟩ :: ctx)

/-- The walk to the leftmost node of the target's right subtree in
`bst_delete`'s two-children case (`xpath` starts `Right` then stays `Left`).
On a subtree it yields the popped leftmost `(key, balance)` and either
`Sum.inl succ` — this node itself is the leftmost (no left child); the
caller pops it via `bst_pop(joint)` and `succ` is its replacement — or
`Sum.inr (focus, frames)`: the pop happened below; `focus` is the popped
node's rewritten parent and `frames` the ancestors above it (innermost
first) within this subtree. -/
def lmPop : BTree α β → Option ((α × β) × (BTree α β ⊕ BTree α β × Ctx α β))
| .nil => none
| .node xl xk xh xlv xb xr =>
    match lmPop xl with
    | none => some ((xk, xb), Sum.inl xr)
    | some (pr, Sum.inl succ) =>
        some (pr, Sum.inr (.node succ xk xh xlv xb xr, []))
    | some (pr, Sum.inr (focus, frames)) =>
        some (pr, Sum.inr (focus, frames ++ [⟨.Left, xk, xh, xlv, xb, xr⟩]))

/-- Two-children delete, `src/tree/ops.rs` lines 207–247: given the target
node's fields, pop the in-order successor (the target's right child itself
when that child has no left child, else the leftmost node found by `lmPop`),
then `replace_key` the popped key into the target.  Returns the rebalance
starting focus, the path the pop happened on, the popped balance, the local
context up to (and including) the rewritten target, and the key
`replace_key` handed back — the target's original key. -/
def swapCore (l : BTree α β) (ky : α) (h lv : Nat) (b : β) (r : BTree α β) :
    Option (BTree α β × TreePath × β × Ctx α β × α) :=
  match r with
  | .nil => none
  | .node rl rk rh rlv rb rr =>
      match lmPop (.node rl rk rh rlv rb rr) with
      | none => none
      | some ((pk, pb), Sum.inl succ) =>
          match replace_key (.node l ky h lv b succ) pk with
          | none => none
          | some (old, tgt') => some (tgt', .Right, pb, [], old)
      | some ((pk, pb), Sum.inr (focus, frames)) =>
          match replace_key (.node l ky h lv b (.node rl rk rh rlv rb rr)) pk with
          | none => none
          | some (old, _) =>
              some (focus, .Left, pb, frames ++ [⟨.Right, pk, h, lv, b, l⟩], old)

/-- Descent-and-delete phase of `bst_delete`: walk down comparing keys with
the parent chain as a zipper.  Hitting an empty slot returns the original
root and `None` (absent key).  Finding the key: a node with fewer than two
children is popped in place — when it is the root the function returns
immediately with no rebalancing; otherwise the rebalance loop starts at the
parent.  A two-children node goes through `swapCore` and the rebalance loop
starts at the popped successor's parent. -/
def delFind (P : TreeBalance α β) (fuel : Nat) (k : α) :
    BTree α β → Ctx α β → BTree α β → Option (BTree α β × Option α)
| .nil, _, t0 => some (t0, none)
| .node xl xk xh xlv xb xr, ctx, t0 =>
    match cmp3 k xk with
    | .lt => delFind P fuel k xl (⟨.Left, xk, xh, xlv, xb, xr⟩ :: ctx) t0
    | .gt => delFind P fuel k xr (⟨.Right, xk, xh, xlv, xb, xl⟩ :: ctx) t0
    | .eq =>
        match bst_pop (.node xl xk xh xlv xb xr) with
        | some ((ky, bal), succ) =>
            match ctx with
            | [] => some (succ, some ky)
            | f :: ctx' =>
                match deleteLoop P fuel (assemble f succ) f.dir bal ctx' with
                | none => none
                | some t' => some (t', some ky)
        | none =>
            match swapCore xl xk xh xlv xb xr with
            | none => none
            | some (focus, xp, bal, ctx2, removed) =>
                match deleteLoop P fuel focus xp bal (ctx2 ++ ctx) with
                | none => none
                | some t' => some (t', some removed)

/-- `bst_delete` from `src/tree/ops.rs` (driven through `Tree::delete`). -/
def bst_delete (P : TreeBalance α β) (fuel : Nat) (t : BTree α β) (k : α) :
    Option (BTree α β × Option α) :=
  delFind P fuel k t [] t

/-- `UnbalancedBalance` from `src/unbalanced.rs`: both callbacks immediately
return `Root` with no mutation; no per-node state. -/
def UnbalancedBalance : TreeBalance α Unit where
  new := ()
  new_root := ()
  rebalance_insert := fun _ t _ => some (t, .Root)
  rebalance_delete := fun _ t _ _ => some (t, .Root)
  adjust_root := id

/-- Node colors from `src/redblack.rs`. -/
inductive RBColor : Type
| Red
| Black
deriving DecidableEq, Repr

/-- Color of a possibly-absent node, as read through
`map_or(Black, |n| n.inspect_balance(|b| b.0))`. -/
def colorOf : BTree α RBColor → RBColor
| .nil => .Black
| .node _ _ _ _ c _ => c

/-- Recolor the root of a subtree (`update_balance` on the inspector). -/
def setColor : BTree α RBColor → RBColor → BTree α RBColor
| .nil, _ => .nil
| .node l k h lv _ r, c => .node l k h lv c r

/-- `inspect_child(path).unwrap().update_balance(...)`: recolor a child,
panicking (`none`) when it is absent. -/
def setChildColor (t : BTree α RBColor) (d : TreePath) (c : RBColor) :
    Option (BTree α RBColor) :=
  match getChild t d with
  | .nil => none
  | ch => some (setChild t d (setColor ch c))

/-- `RedBlackBalance::rebalance_insert` from `src/redblack.rs`. -/
def rbRebalanceInsert (isRoot : Bool) (t : BTree α RBColor)
    (path : TreePath × TreePath) : Option (BTree α RBColor × NodeOffset) :=
  let pp := path.1
  let xp := path.2
  match getChild t pp with
  | .nil => none
  | pnode =>
      let xcolor := colorOf (getChild pnode xp)
      let pcolor := colorOf pnode
      let ucolor := colorOf (getChild t pp.reflect)
      if colorOf t = .Red ∧ pcolor = .Red then some (t, .Parent)
      else if xcolor = .Black then some (t, .Root)
      else
        match pcolor, ucolor with
        | .Red, .Red =>
            match setChildColor t .Right .Black with
            | none => none
            | some t1 =>
                match setChildColor t1 .Left .Black with
                | none => none
                | some t2 =>
                    some (if isRoot then t2 else setColor t2 .Red, .Parent)
        | .Red, .Black =>
            match inspectorRotate t (pp, xp) with
            | none => none
            | some t1 =>
                match setChildColor t1 pp.reflect .Red with
                | none => none
                | some t2 => some (setColor t2 .Black, .Root)
        | .Black, _ => some (t, .Root)

/-- `RedBlackBalance::rebalance_delete` from `src/redblack.rs`. -/
def rbRebalanceDelete (_isRoot : Bool) (t : BTree α RBColor)
    (xpath : TreePath) (popped : RBColor) : Option (BTree α RBColor × NodeOffset) :=
  if popped = .Red then some (t, .Root)
  else
    let sp := xpath.reflect
    let snode := getChild t sp
    let scolor := colorOf snode
    let vpath : Option TreePath :=
      match snode with
      | .nil => none
      | s =>
          if colorOf (getChild s sp) = .Red then some sp
          else if colorOf (getChild s xpath) = .Red then some xpath
          else none
    let xcolor := colorOf (getChild t xpath)
    if xcolor = .Black then
      if scolor = .Black then
        let pcolor := colorOf t
        match vpath with
        | some pth =>
            match inspectorRotate t (sp, pth) with
            | none => none
            | some t1 =>
                match setChildColor t1 .Right .Black with
                | none => none
                | some t2 =>
                    match setChildColor t2 .Left .Black with
                    | none => none
                    | some t3 => some (setColor t3 pcolor, .Root)
        | none =>
            let t1 :=
              match setChildColor t sp .Red with
              | none => t
              | some u => u
            match pcolor with
            | .Black => some (t1, .Parent)
            | .Red => some (setColor t1 .Black, .Root)
      else
        match inspectorRotate t (sp, sp) with
        | none => none
        | some t1 =>
            match setChildColor t1 xpath .Red with
            | none => none
            | some t2 => some (setColor t2 .Black, .Child xpath)
    else
      match setChildColor t xpath .Black with
      | none => none
      | some t1 => some (t1, .Root)

/-- `RedBlackBalance` from `src/redblack.rs`: fresh nodes are `Red`, fresh
roots `Black`; `adjust_root` recolors to `Black` (the engine in
`src/tree/ops.rs` never calls it — `TreeNode::mark_root` has no caller). -/
def RedBlackBalance : TreeBalance α RBColor where
  new := .Red
  new_root := .Black
  rebalance_insert := rbRebalanceInsert
  rebalance_delete := rbRebalanceDelete
  adjust_root := fun _ => .Black

/-- In-order contribution of one ancestor frame: the focused subtree's
in-order sequence is extended with the ancestor's key and sibling on the
correct side. -/
def inorderF (f : Frame α β) (m : List α) : List α :=
  match f.dir with
  | .Left => m ++ f.key :: inorder f.sib
  | .Right => inorder f.sib ++ f.key :: m

/-- In-order sequence of the whole tree, given the focused subtree's
in-order sequence and the ancestor context. -/
def inorderZ : Ctx α β → List α → List α
| [], m => m
| f :: ctx, m => inorderZ ctx (inorderF f m)

/-- The in-order sequence `bst_insert` descends to produce: the key is
spliced at the empty slot the search reaches (the sequence is returned
unchanged when the key is found mid-descent). -/
def insIn [LinearOrder α] : BTree α β → α → List α
| .nil, k => [k]
| .node l ky _ _ _ r, k =>
    match cmp3 k ky with
    | .lt => insIn l k ++ ky :: inorder r
    | .gt => inorder l ++ ky :: insIn r k
    | .eq => inorder l ++ ky :: inorder r

/-- The in-order sequence `bst_delete` descends to produce when the key is
present: the found node's key is dropped. -/
def delIn [LinearOrder α] : BTree α β → α → List α
| .nil, _ => []
| .node l ky _ _ _ r, k =>
    match cmp3 k ky with
    | .eq => inorder l ++ inorder r
    | .lt => delIn l k ++ ky :: inorder r
    | .gt => inorder l ++ ky :: delIn r k

/-- The subtree rooted at the node the search-descent for `k` reaches. -/
def findNode [LinearOrder α] : BTree α β → α → Option (BTree α β)
| .nil, _ => none
| .node l ky h lv b r, k =>
    match cmp3 k ky with
    | .eq => some (.node l ky h lv b r)
    | .lt => findNode l k
    | .gt => findNode r k

/-- Both cached counters of every node agree with the formulas of
`TreeNode::update` applied to its current children: `height` is
`1 + max(child heights)` (absent child 0) and `leaves` is the sum of the
present children's leaf counts with a floor of 1. -/
def CacheOK : BTree α β → Prop
| .nil => True
| .node l _ h lv _ r =>
    CacheOK l ∧ CacheOK r ∧
    h = max (cachedHeight l) (cachedHeight r) + 1 ∧
    lv = max 1 (cachedLeaves l + cachedLeaves r)

instance instDecidableCacheOK : (t : BTree α β) → Decidable (CacheOK t)
| .nil => isTrue trivial
| .node l _ _ _ _ r =>
    letI := instDecidableCacheOK l
    letI := instDecidableCacheOK r
    instDecidableAnd

/-- Caches correct everywhere except possibly at the root — the state of a
subtree handed to a rebalance callback before the engine calls `update()`
on it. -/
def CacheOKb : BTree α β → Prop
| .nil => True
| .node l _ _ _ _ r => CacheOK l ∧ CacheOK r

/-- The frame of a node above its child at `d` (stale caches, as stored). -/
def frameAt : BTree α β → TreePath → Option (Frame α β)
| .nil, _ => none
| .node _ k h lv b r, .Left => some ⟨.Left, k, h, lv, b, r⟩
| .node l k h lv b _, .Right => some ⟨.Right, k, h, lv, b, l⟩

/-- In-order sequence of what remains of a subtree after `lmPop` popped its
leftmost node: either the replacement subtree or the focus-plus-frames
zipper. -/
def restList : (BTree α β ⊕ BTree α β × Ctx α β) → List α
| Sum.inl succ => inorder succ
| Sum.inr (focus, frames) => inorderZ frames (inorder focus)

/-- Cache state of what remains of a subtree after `lmPop` popped its
leftmost node: the replacement subtree is fully consistent; the focus has a
stale root and consistent frames. -/
def CacheRest : (BTree α β ⊕ BTree α β × Ctx α β) → Prop
| Sum.inl succ => CacheOK succ
| Sum.inr (focus, frames) => CacheOKb focus ∧ ∀ f ∈ frames, CacheOK f.sib

/-- The key sitting at the delete target's position right after the
two-children swap phase: the outermost local frame is the rewritten target
(deep successor), or the focus itself is the rewritten target when the
successor was the target's right child. -/
def swapTargetKey : BTree α β × TreePath × β × Ctx α β × α → Option α
| (focus, _, _, ctx2, _) =>
    match ctx2.getLast? with
    | some f => some f.key
    | none => rootKey focus

/-- A policy's rebalance callbacks never change the in-order key sequence of
the subtree they are handed — true of anything expressible through the
`NodeInspector`, whose only structural mutator is `rotate`. -/
def PreservesInorder (P : TreeBalance α β) : Prop :=
  (∀ ir t pc t' off, P.rebalance_insert ir t pc = some (t', off) →
      inorder t' = inorder t) ∧
  (∀ ir t xp bal t' off, P.rebalance_delete ir t xp bal = some (t', off) →
      inorder t' = inorder t)

/-- A policy's rebalance callbacks keep every node's caches correct except
possibly the returned root's — true of anything expressible through the
`NodeInspector`, since `bst_rotate` refreshes the demoted pivot and the
engine refreshes the returned node itself. -/
def PreservesCaches (P : TreeBalance α β) : Prop :=
  (∀ ir t pc t' off, P.rebalance_insert ir t pc = some (t', off) →
      CacheOKb t → CacheOKb t') ∧
  (∀ ir t xp bal t' off, P.rebalance_delete ir t xp bal = some (t', off) →
      CacheOKb t → CacheOKb t')

/-- A test policy whose callbacks always answer `Child`: exercises the
`NodeOffset::Child` continuation in both traversals. -/
def ChildPolicy : TreeBalance α Unit where
  new := ()
  new_root := ()
  rebalance_insert := fun _ t _ => some (t, .Child .Left)
  rebalance_delete := fun _ t _ _ => some (t, .Child .Right)
  adjust_root := id

/-- A public operation on the tree (`Tree::insert` / `Tree::delete` /
`Tree::search`). -/
inductive TreeOp (α : Type) : Type
| ins (k : α)
| del (k : α)
| fnd (k : α)
deriving DecidableEq, Repr

/-- Run one public operation; `search` takes `&self` and cannot change the
tree. -/
def applyOp (P : TreeBalance α β) (fuel : Nat) (t : BTree α β) :
    TreeOp α → Option (BTree α β)
| .ins k => bst_insert P t k
| .del k => (bst_delete P fuel t k).map (·.1)
| .fnd _ => some t

/-- Run a sequence of public operations. -/
def applyOps (P : TreeBalance α β) (fuel : Nat) :
    List (TreeOp α) → BTree α β → Option (BTree α β)
| [], t => some t
| op :: ops, t =>
    match applyOp P fuel t op with
    | none => none
    | some t' => applyOps P fuel ops t'

end BST

namespace Avl

/-!
Embedding of the older standalone AVL module `src/avl.rs` (its `TreeDir` is
the same two-element direction type, rendered here by `TreePath`).  Its nodes
carry only a key, a cached height and the two children; rotation swaps cell
contents so the rotated subtree root stays in the caller's `Rc` cell, which
in functional form is just returning the new subtree. -/

/-- `AVLNode` of `src/avl.rs` wrapped in its `AVLTree` option. -/
inductive ATree (α : Type) : Type
| nil : ATree α
| node (l : ATree α) (key : α) (height : Nat) (r : ATree α) : ATree α
deriving DecidableEq, Repr

variable {α : Type}

/-- Cached height, 0 for an absent tree. -/
def aHeight : ATree α → Nat
| .nil => 0
| .node _ _ h _ => h

/-- `AVLNode::get_child`. -/
def aChild : ATree α → TreePath → ATree α
| .nil, _ => .nil
| .node l _ _ _, .Left => l
| .node _ _ _ r, .Right => r

/-- Replace a child. -/
def aSetChild : ATree α → TreePath → ATree α → ATree α
| .nil, _, _ => .nil
| .node _ k h r, .Left, c => .node c k h r
| .node l k h _, .Right, c => .node l k h c

/-- `AVLNode::update_height`. -/
def aUpdate : ATree α → ATree α
| .nil => .nil
| .node l k _ r => .node l k (max (aHeight l) (aHeight r) + 1) r

/-- `bst_rotate` of `src/avl.rs`: prune the child `x` along `direction` and
its inner grandchild `v`, swap the two cells, reattach, then update both —
`x` (the old pivot, now a child) first and `p` (the new subtree root)
second.  Panics (`none`) when the child along `direction` is absent. -/
def avlRotate : ATree α → TreePath → Option (ATree α)
| .nil, _ => none
| .node l k h r, d =>
    match (match d with | .Left => l | .Right => r) with
    | .nil => none
    | .node xl xk xh xr =>
        let v := aChild (.node xl xk xh xr) d.reflect
        let p' := aUpdate (aSetChild (.node l k h r) d v)
        some (aUpdate (aSetChild (.node xl xk xh xr) d.reflect p'))

variable [LinearOrder α]

/-- `avl_check` of `src/avl.rs`: asserts `parent.height >= uncle.height`
(panic, `none`, otherwise) and reports whether the difference exceeds 1. -/
def avlCheck (parent : ATree α) (uncle : ATree α) : Option Bool :=
  if aHeight parent < aHeight uncle then none
  else some (decide (aHeight parent - aHeight uncle > 1))

/-- `bst_insert` of `src/avl.rs` (recursive): searching down from `rnode`;
a duplicate returns `None` (no mutation), otherwise the new child is
attached at the empty slot and on the way back up each level refreshes its
child's height and rotates when `avl_check` fires, performing the inner
rotation first when the child path differs from the parent path.  Returns
the possibly-rewritten subtree together with `Some(path taken at this
node)`. -/
def avlInsert : ATree α → α → Option (ATree α × Option TreePath)
| .nil, _ => none
| .node l ky h r, k =>
    match cmp3 k ky with
    | .eq => some (.node l ky h r, none)
    | .lt =>
        match l with
        | .node _ _ _ _ =>
            match avlInsert l k with
            | none => none
            | some (_, none) => some (.node l ky h r, none)
            | some (pn', some child_path) =>
                let pn1 := aUpdate pn'
                let r1 := aSetChild (.node l ky h r) .Left pn1
                match avlCheck pn1 r with
                | none => none
                | some true =>
                    let inner :=
                      if child_path ≠ TreePath.Left then avlRotate pn1 child_path
                      else some pn1
                    match inner with
                    | none => none
                    | some pn2 =>
                        match avlRotate (aSetChild r1 .Left pn2) .Left with
                        | none => none
                        | some r2 => some (r2, some .Left)
                | some false => some (r1, some .Left)
        | .nil =>
            some (aUpdate (aSetChild (.node l ky h r) .Left (.node .nil k 1 .nil)),
              some .Left)
    | .gt =>
        match r with
        | .node _ _ _ _ =>
            match avlInsert r k with
            | none => none
            | some (_, none) => some (.node l ky h r, none)
            | some (pn', some child_path) =>
                let pn1 := aUpdate pn'
                let r1 := aSetChild (.node l ky h r) .Right pn1
                match avlCheck pn1 l with
                | none => none
                | some true =>
                    let inner :=
                      if child_path ≠ TreePath.Right then avlRotate pn1 child_path
                      else some pn1
                    match inner with
                    | none => none
                    | some pn2 =>
                        match avlRotate (aSetChild r1 .Right pn2) .Right with
                        | some r2 => some (r2, some .Right)
                        | none => none
                | some false => some (r1, some .Right)
        | .nil =>
            some (aUpdate (aSetChild (.node l ky h r) .Right (.node .nil k 1 .nil)),
              some .Right)

/-- `Tree::insert` of `src/avl.rs`: an empty tree gets a fresh root node,
otherwise `bst_insert` runs from the root (its return value is ignored). -/
def avlTreeInsert (t : ATree α) (k : α) : Option (ATree α) :=
  match t with
  | .nil => some (.node .nil k 1 .nil)
  | _ =>
      match avlInsert t k with
      | none => none
      | some (t', _) => some t'

/-- `Tree::height` of `src/avl.rs`. -/
def avlTreeHeight (t : ATree α) : Nat := aHeight t

/-- Insert a list of keys in order into an AVL `Tree`, starting empty. -/
def avlInsertAll : List α → ATree α → Option (ATree α)
| [], t => some t
| k :: ks, t =>
    match avlTreeInsert t k with
    | none => none
    | some t' => avlInsertAll ks t'

end Avl

namespace BST

variable {α β : Type}

theorem cmp3_eq_iff [LinearOrder α] {a b : α} : cmp3 a b = .eq ↔ a = b := by
  unfold cmp3
  split_ifs with h1 h2
  · exact iff_of_false (by simp) h1.ne
  · exact iff_of_false (by simp) h2.ne'
  · exact iff_of_true rfl (le_antisymm (not_lt.mp h2) (not_lt.mp h1))

theorem cmp3_lt_iff [LinearOrder α] {a b : α} : cmp3 a b = .lt ↔ a < b := by
  unfold cmp3
  split_ifs with h1 h2
  · exact iff_of_true rfl h1
  · exact iff_of_false (by simp) h1
  · exact iff_of_false (by simp) h1

theorem cmp3_gt_iff [LinearOrder α] {a b : α} : cmp3 a b = .gt ↔ b < a := by
  unfold cmp3
  split_ifs with h1 h2
  · exact iff_of_false (by simp) (lt_asymm h1)
  · exact iff_of_true rfl h2
  · exact iff_of_false (by simp) h2

theorem inorder_updateRoot (t : BTree α β) : inorder (updateRoot t) = inorder t := by
  cases t <;> rfl

theorem inorder_assemble (f : Frame α β) (m : BTree α β) :
    inorder (assemble f m) = inorderF f (inorder m) := by
  obtain ⟨d, k, h, lv, b, s⟩ := f
  cases d <;> rfl

theorem inorderZ_append (c₁ c₂ : Ctx α β) (m : List α) :
    inorderZ (c₁ ++ c₂) m = inorderZ c₂ (inorderZ c₁ m) := by
  induction c₁ generalizing m with
  | nil => rfl
  | cons f c ih => simp [inorderZ, ih]

theorem plugUpdate_inorder (ctx : Ctx α β) (t : BTree α β) :
    inorder (plugUpdate t ctx) = inorderZ ctx (inorder t) := by
  induction ctx generalizing t with
  | nil => rfl
  | cons f c ih =>
      simp only [plugUpdate, inorderZ, ih, inorder_updateRoot, inorder_assemble]

theorem inorderF_sublist (f : Frame α β) {m₁ m₂ : List α}
    (h : List.Sublist m₁ m₂) : List.Sublist (inorderF f m₁) (inorderF f m₂) := by
  obtain ⟨d, k, hh, lv, b, s⟩ := f
  cases d with
  | Left => exact h.append_right _
  | Right => exact (h.cons₂ k).append_left _

theorem inorderZ_sublist (ctx : Ctx α β) {m₁ m₂ : List α}
    (h : List.Sublist m₁ m₂) :
    List.Sublist (inorderZ ctx m₁) (inorderZ ctx m₂) := by
  induction ctx generalizing m₁ m₂ with
  | nil => exact h
  | cons f c ih => exact ih (inorderF_sublist f h)

theorem insertLoop_nil [LinearOrder α] (P : TreeBalance α β)
    (r : BTree α β) (pp xp : TreePath) :
    insertLoop P [] r pp xp =
      match P.rebalance_insert true r (pp, xp) with
      | none => none
      | some (cur, off) =>
          match off with
          | .Root => some (plugUpdate (updateRoot cur) [])
          | .Child _ => none
          | .Parent => some (updateRoot cur) := by
  rw [insertLoop.eq_def]
  rfl

theorem insertLoop_cons [LinearOrder α] (P : TreeBalance α β) (f : Frame α β)
    (ctx' : Ctx α β) (r : BTree α β) (pp xp : TreePath) :
    insertLoop P (f :: ctx') r pp xp =
      match P.rebalance_insert false r (pp, xp) with
      | none => none
      | some (cur, off) =>
          match off with
          | .Root => some (plugUpdate (updateRoot cur) (f :: ctx'))
          | .Child _ => none
          | .Parent =>
              match rootKey (updateRoot cur) with
              | none => none
              | some ck =>
                  match findPlacement f.key ck with
                  | none => none
                  | some pl => insertLoop P ctx' (assemble f (updateRoot cur)) pl pp := by
  rw [insertLoop.eq_def]
  rfl

theorem insertLoop_inorder [LinearOrder α] {P : TreeBalance α β}
    (hP : ∀ ir t pc t' off, P.rebalance_insert ir t pc = some (t', off) →
      inorder t' = inorder t) :
    ∀ (ctx : Ctx α β) (r : BTree α β) (pp xp : TreePath) (res : BTree α β),
      insertLoop P ctx r pp xp = some res → inorder res = inorderZ ctx (inorder r) := by
  intro ctx
  induction ctx with
  | nil =>
      intro r pp xp res h
      rw [insertLoop_nil] at h
      split at h
      · exact Option.noConfusion h
      · rename_i cur off hcb
        have hio : inorder cur = inorder r := hP _ _ _ _ _ hcb
        cases off with
        | Root =>
            simp only [Option.some.injEq] at h
            rw [← h, plugUpdate_inorder, inorder_updateRoot, hio]
        | Parent =>
            simp only [Option.some.injEq] at h
            rw [← h, inorder_updateRoot, hio]
            rfl
        | Child d => exact Option.noConfusion h
  | cons f ctx' ih =>
      intro r pp xp res h
      rw [insertLoop_cons] at h
      split at h
      · exact Option.noConfusion h
      · rename_i cur off hcb
        have hio : inorder cur = inorder r := hP _ _ _ _ _ hcb
        cases off with
        | Root =>
            simp only [Option.some.injEq] at h
            rw [← h, plugUpdate_inorder, inorder_updateRoot, hio]
        | Parent =>
            cases hrk : rootKey (updateRoot cur) with
            | none => simp only [hrk] at h; exact Option.noConfusion h
            | some ck =>
                simp only [hrk] at h
                cases hpl : findPlacement f.key ck with
                | none => simp only [hpl] at h; exact Option.noConfusion h
                | some pl =>
                    simp only [hpl] at h
                    rw [ih _ _ _ _ h, inorderZ, inorder_assemble,
                      inorder_updateRoot, hio]
        | Child d => exact Option.noConfusion h

theorem deleteLoop_inorder [LinearOrder α] {P : TreeBalance α β}
    (hP : ∀ ir t xp bal t' off, P.rebalance_delete ir t xp bal = some (t', off) →
      inorder t' = inorder t) :
    ∀ (fuel : Nat) (ctx : Ctx α β) (r : BTree α β) (xp : TreePath) (bal : β)
      (res : BTree α β),
      deleteLoop P fuel r xp bal ctx = some res →
      inorder res = inorderZ ctx (inorder r) := by
  intro fuel
  induction fuel with
  | zero =>
      intro ctx r xp bal res h
      simp only [deleteLoop] at h
      exact Option.noConfusion h
  | succ fuel ih =>
      intro ctx r xp bal res h
      simp only [deleteLoop] at h
      split at h
      · exact Option.noConfusion h
      · rename_i cur off hcb
        have hio : inorder cur = inorder r := hP _ _ _ _ _ _ hcb
        cases off with
        | Root =>
            simp only [Option.some.injEq] at h
            rw [← h, plugUpdate_inorder, inorder_updateRoot, hio]
        | Parent =>
            cases ctx with
            | nil =>
                simp only [Option.some.injEq] at h
                rw [← h, inorder_updateRoot, hio]
                rfl
            | cons f ctx' =>
                cases hrk : rootKey (updateRoot cur) with
                | none => simp only [hrk] at h; exact Option.noConfusion h
                | some ck =>
                    simp only [hrk] at h
                    cases hpl : findPlacement f.key ck with
                    | none => simp only [hpl] at h; exact Option.noConfusion h
                    | some pl =>
                        simp only [hpl] at h
                        rw [ih _ _ _ _ _ h, inorderZ, inorder_assemble,
                          inorder_updateRoot, hio]
        | Child d =>
            cases hu : updateRoot cur with
            | nil => simp only [hu] at h; exact Option.noConfusion h
            | node l k hh lv b r2 =>
                simp only [hu] at h
                have hiu : inorder (BTree.node l k hh lv b r2) = inorder r := by
                  rw [← hu, inorder_updateRoot, hio]
                cases d with
                | Left =>
                    cases l with
                    | nil => exact Option.noConfusion h
                    | node a1 a2 a3 a4 a5 a6 =>
                        have h' : deleteLoop P fuel (BTree.node a1 a2 a3 a4 a5 a6)
                            .Left bal (⟨.Left, k, hh, lv, b, r2⟩ :: ctx) = some res := h
                        rw [ih _ _ _ _ _ h', inorderZ, ← hiu]
                        rfl
                | Right =>
                    cases r2 with
                    | nil => exact Option.noConfusion h
                    | node a1 a2 a3 a4 a5 a6 =>
                        have h' : deleteLoop P fuel (BTree.node a1 a2 a3 a4 a5 a6)
                            .Right bal (⟨.Right, k, hh, lv, b, l⟩ :: ctx) = some res := h
                        rw [ih _ _ _ _ _ h', inorderZ, ← hiu]
                        rfl

theorem insGo_inorder [LinearOrder α] {P : TreeBalance α β} (k : α)
    (hP : ∀ ir t pc t' off, P.rebalance_insert ir t pc = some (t', off) →
      inorder t' = inorder t) :
    ∀ (t : BTree α β) (ctx : Ctx α β) (t0 res : BTree α β),
      insGo P k t ctx t0 = some res →
      res = t0 ∨ inorder res = inorderZ ctx (insIn t k) := by
  intro t
  induction t with
  | nil =>
      intro ctx t0 res h
      simp only [insGo] at h
      cases ctx with
      | nil =>
          simp only [Option.some.injEq] at h
          right
          rw [← h]
          rfl
      | cons f ctx' =>
          cases ctx' with
          | nil =>
              simp only [Option.some.injEq] at h
              right
              rw [← h, insIn, inorderZ, inorderZ, inorder_updateRoot, inorder_assemble]
              rfl
          | cons g ctx'' =>
              cases hrk : rootKey (updateRoot (assemble f
                  (BTree.node .nil k 1 1 P.new .nil))) with
              | none => simp only [hrk] at h; exact Option.noConfusion h
              | some pk =>
                  simp only [hrk] at h
                  cases hpl : findPlacement g.key pk with
                  | none => simp only [hpl] at h; exact Option.noConfusion h
                  | some pl =>
                      simp only [hpl] at h
                      right
                      rw [insertLoop_inorder hP _ _ _ _ _ h, insIn, inorderZ, inorderZ,
                        inorder_assemble, inorder_updateRoot, inorder_assemble]
                      rfl
  | node l ky hh lv b r ihl ihr =>
      intro ctx t0 res h
      simp only [insGo] at h
      cases hc : cmp3 k ky with
      | eq =>
          rw [hc] at h
          simp only [Option.some.injEq] at h
          exact Or.inl h.symm
      | lt =>
          rw [hc] at h
          rcases ihl _ _ _ h with h1 | h1
          · exact Or.inl h1
          · right
            rw [h1, insIn, hc, inorderZ]
            rfl
      | gt =>
          rw [hc] at h
          rcases ihr _ _ _ h with h1 | h1
          · exact Or.inl h1
          · right
            rw [h1, insIn, hc, inorderZ]
            rfl

theorem bst_insert_inorder [LinearOrder α] {P : TreeBalance α β}
    (hP : ∀ ir t pc t' off, P.rebalance_insert ir t pc = some (t', off) →
      inorder t' = inorder t)
    {t res : BTree α β} {k : α} (h : bst_insert P t k = some res) :
    res = t ∨ inorder res = insIn t k := by
  rcases insGo_inorder k hP t [] t res h with h1 | h1
  · exact Or.inl h1
  · exact Or.inr h1

theorem mem_insIn [LinearOrder α] {k x : α} :
    ∀ (t : BTree α β), x ∈ insIn t k → x ∈ inorder t ∨ x = k := by
  intro t
  induction t with
  | nil =>
      intro h
      simp only [insIn, List.mem_singleton] at h
      exact Or.inr h
  | node l ky hh lv b r ihl ihr =>
      intro h
      rw [insIn] at h
      cases hc : cmp3 k ky with
      | eq => rw [hc] at h; exact Or.inl h
      | lt =>
          rw [hc] at h
          rw [List.mem_append] at h
          rcases h with h | h
          · rcases ihl h with h1 | h1
            · exact Or.inl (by rw [inorder, List.mem_append]; exact Or.inl h1)
            · exact Or.inr h1
          · exact Or.inl (by rw [inorder, List.mem_append]; exact Or.inr h)
      | gt =>
          rw [hc] at h
          rw [List.mem_append] at h
          rcases h with h | h
          · exact Or.inl (by rw [inorder, List.mem_append]; exact Or.inl h)
          · rw [List.mem_cons] at h
            rcases h with h | h
            · exact Or.inl (by
                rw [inorder, List.mem_append, List.mem_cons]
                exact Or.inr (Or.inl h))
            · rcases ihr h with h1 | h1
              · exact Or.inl (by
                  rw [inorder, List.mem_append, List.mem_cons]
                  exact Or.inr (Or.inr h1))
              · exact Or.inr h1

theorem pairwise_insIn [LinearOrder α] {k : α} :
    ∀ (t : BTree α β), (inorder t).Pairwise (· < ·) →
      (insIn t k).Pairwise (· < ·) := by
  intro t
  induction t with
  | nil => intro _; simp [insIn]
  | node l ky hh lv b r ihl ihr =>
      intro hs
      rw [inorder, List.pairwise_append] at hs
      obtain ⟨hl, hkr, hcross⟩ := hs
      rw [List.pairwise_cons] at hkr
      obtain ⟨hkR, hR⟩ := hkr
      rw [insIn]
      cases hc : cmp3 k ky with
      | eq =>
          rw [List.pairwise_append, List.pairwise_cons]
          exact ⟨hl, ⟨hkR, hR⟩, hcross⟩
      | lt =>
          have hk : k < ky := cmp3_lt_iff.mp hc
          rw [List.pairwise_append, List.pairwise_cons]
          refine ⟨ihl hl, ⟨hkR, hR⟩, ?_⟩
          intro a ha bb hb
          rcases mem_insIn l ha with h1 | h1
          · exact hcross a h1 bb hb
          · subst h1
            rw [List.mem_cons] at hb
            rcases hb with hb | hb
            · rw [hb]; exact hk
            · exact lt_trans hk (hkR bb hb)
      | gt =>
          have hk : ky < k := cmp3_gt_iff.mp hc
          rw [List.pairwise_append, List.pairwise_cons]
          refine ⟨hl, ⟨?_, ihr hR⟩, ?_⟩
          · intro y hy
            rcases mem_insIn r hy with h1 | h1
            · exact hkR y h1
            · rw [h1]; exact hk
          · intro a ha bb hb
            rw [List.mem_cons] at hb
            rcases hb with hb | hb
            · rw [hb]; exact hcross a ha ky (List.mem_cons_self _ _)
            · rcases mem_insIn r hb with h1 | h1
              · exact hcross a ha bb (List.mem_cons_of_mem _ h1)
              · rw [h1]; exact lt_trans (hcross a ha ky (List.mem_cons_self _ _)) hk

theorem bst_insert_pairwise [LinearOrder α] {P : TreeBalance α β}
    (hP : ∀ ir t pc t' off, P.rebalance_insert ir t pc = some (t', off) →
      inorder t' = inorder t)
    {t res : BTree α β} {k : α} (hs : (inorder t).Pairwise (· < ·))
    (h : bst_insert P t k = some res) : (inorder res).Pairwise (· < ·) := by
  rcases bst_insert_inorder hP h with h1 | h1
  · rw [h1]; exact hs
  · rw [h1]; exact pairwise_insIn t hs

theorem lmPop_eq_none_iff : ∀ (t : BTree α β), lmPop t = none ↔ t = .nil := by
  intro t
  cases t with
  | nil => simp [lmPop]
  | node xl xk xh xlv xb xr =>
      simp only [lmPop]
      cases hxl : lmPop xl with
      | none => simp
      | some v =>
          obtain ⟨pr, s⟩ := v
          cases s with
          | inl succ => simp
          | inr fz => obtain ⟨focus, frames⟩ := fz; simp

theorem lmPop_inorder : ∀ (t : BTree α β) (pr : α × β)
    (s : BTree α β ⊕ BTree α β × Ctx α β),
    lmPop t = some (pr, s) → inorder t = pr.1 :: restList s := by
  intro t
  induction t with
  | nil => intro pr s h; exact Option.noConfusion h
  | node xl xk xh xlv xb xr ihl ihr =>
      intro pr s h
      simp only [lmPop] at h
      cases hxl : lmPop xl with
      | none =>
          rw [hxl] at h
          simp only [Option.some.injEq, Prod.mk.injEq] at h
          obtain ⟨h1, h2⟩ := h
          have hnil : xl = .nil := (lmPop_eq_none_iff xl).mp hxl
          subst hnil
          rw [← h2, ← h1]
          rfl
      | some v =>
          obtain ⟨pr', s'⟩ := v
          rw [hxl] at h
          cases s' with
          | inl succ =>
              simp only [Option.some.injEq, Prod.mk.injEq] at h
              obtain ⟨h1, h2⟩ := h
              have hx : inorder xl = pr'.1 :: restList (Sum.inl succ) :=
                ihl _ _ hxl
              rw [← h2, ← h1, restList, inorder, hx, restList]
              rfl
          | inr fz =>
              obtain ⟨focus, frames⟩ := fz
              simp only [Option.some.injEq, Prod.mk.injEq] at h
              obtain ⟨h1, h2⟩ := h
              have hx : inorder xl = pr'.1 :: restList (Sum.inr (focus, frames)) :=
                ihl _ _ hxl
              rw [← h2, ← h1, restList, inorderZ_append, inorder, hx, restList]
              rfl

theorem replace_key_some [LinearOrder α] {l r t' : BTree α β} {ky k old : α}
    {h lv : Nat} {b : β}
    (hh : replace_key (.node l ky h lv b r) k = some (old, t')) :
    old = ky ∧ t' = .node l k h lv b r := by
  rw [replace_key] at hh
  split_ifs at hh
  simp only [Option.some.injEq, Prod.mk.injEq] at hh
  exact ⟨hh.1.symm, hh.2.symm⟩

theorem swapCore_inorder [LinearOrder α] {l r focus : BTree α β} {ky old : α}
    {h lv : Nat} {b bal : β} {xp : TreePath} {ctx2 : Ctx α β}
    (hsc : swapCore l ky h lv b r = some (focus, xp, bal, ctx2, old)) :
    old = ky ∧ inorderZ ctx2 (inorder focus) = inorder l ++ inorder r := by
  cases r with
  | nil => exact Option.noConfusion hsc
  | node rl rk rh rlv rb rr =>
      simp only [swapCore] at hsc
      cases hlm : lmPop (BTree.node rl rk rh rlv rb rr) with
      | none => simp only [hlm] at hsc; exact Option.noConfusion hsc
      | some v =>
          obtain ⟨⟨pk, pb⟩, s⟩ := v
          simp only [hlm] at hsc
          have hri : inorder (BTree.node rl rk rh rlv rb rr) = pk :: restList s :=
            lmPop_inorder _ _ _ hlm
          cases s with
          | inl succ =>
              cases hrk : replace_key (BTree.node l ky h lv b succ) pk with
              | none => simp only [hrk] at hsc; exact Option.noConfusion hsc
              | some v2 =>
                  obtain ⟨old', tgt'⟩ := v2
                  simp only [hrk] at hsc
                  simp only [Option.some.injEq, Prod.mk.injEq] at hsc
                  obtain ⟨hf, -, -, hc2, ho⟩ := hsc
                  obtain ⟨ho', ht'⟩ := replace_key_some hrk
                  subst hf
                  subst ht'
                  rw [← hc2, ← ho, ho', inorderZ, inorder, hri, restList]
                  exact ⟨rfl, rfl⟩
          | inr fz =>
              obtain ⟨focus', frames⟩ := fz
              cases hrk : replace_key
                  (BTree.node l ky h lv b (BTree.node rl rk rh rlv rb rr)) pk with
              | none => simp only [hrk] at hsc; exact Option.noConfusion hsc
              | some v2 =>
                  obtain ⟨old', tgt'⟩ := v2
                  simp only [hrk] at hsc
                  simp only [Option.some.injEq, Prod.mk.injEq] at hsc
                  obtain ⟨hf, -, -, hc2, ho⟩ := hsc
                  obtain ⟨ho', -⟩ := replace_key_some hrk
                  subst hf
                  rw [← hc2, ← ho, ho', inorderZ_append, hri, restList]
                  exact ⟨rfl, rfl⟩

theorem bst_pop_node_some {xl xr succ : BTree α β} {xk : α}
    {xh xlv : Nat} {xb : β} {pr : α × β}
    (h : bst_pop (.node xl xk xh xlv xb xr) = some (pr, succ)) :
    pr = (xk, xb) ∧
      List.Sublist (inorder succ) (inorder (.node xl xk xh xlv xb xr)) := by
  cases xl with
  | nil =>
      cases xr with
      | nil =>
          simp only [bst_pop, Option.some.injEq, Prod.mk.injEq] at h
          obtain ⟨h1, h2⟩ := h
          subst h2
          exact ⟨h1.symm, by simp [inorder]⟩
      | node a1 a2 a3 a4 a5 a6 =>
          simp only [bst_pop, Option.some.injEq, Prod.mk.injEq] at h
          obtain ⟨h1, h2⟩ := h
          subst h2
          refine ⟨h1.symm, ?_⟩
          rw [inorder]
          exact (List.sublist_cons_self xk _).trans (List.sublist_append_right _ _)
  | node a1 a2 a3 a4 a5 a6 =>
      cases xr with
      | nil =>
          simp only [bst_pop, Option.some.injEq, Prod.mk.injEq] at h
          obtain ⟨h1, h2⟩ := h
          subst h2
          refine ⟨h1.symm, ?_⟩
          rw [inorder]
          exact List.sublist_append_left _ _
      | node b1 b2 b3 b4 b5 b6 => simp [bst_pop] at h

theorem delFind_sublist [LinearOrder α] {P : TreeBalance α β}
    (hP : ∀ ir t xp bal t' off, P.rebalance_delete ir t xp bal = some (t', off) →
      inorder t' = inorder t) (fuel : Nat) (k : α) :
    ∀ (t : BTree α β) (ctx : Ctx α β) (t0 res : BTree α β) (rk : Option α),
      delFind P fuel k t ctx t0 = some (res, rk) →
      res = t0 ∨ List.Sublist (inorder res) (inorderZ ctx (inorder t)) := by
  intro t
  induction t with
  | nil =>
      intro ctx t0 res rk h
      simp only [delFind, Option.some.injEq, Prod.mk.injEq] at h
      exact Or.inl h.1.symm
  | node xl xk xh xlv xb xr ihl ihr =>
      intro ctx t0 res rk h
      simp only [delFind] at h
      cases hc : cmp3 k xk with
      | lt =>
          rw [hc] at h
          rcases ihl _ _ _ _ h with h1 | h1
          · exact Or.inl h1
          · right
            rw [inorderZ] at h1
            exact h1
      | gt =>
          rw [hc] at h
          rcases ihr _ _ _ _ h with h1 | h1
          · exact Or.inl h1
          · right
            rw [inorderZ] at h1
            exact h1
      | eq =>
          simp only [hc] at h
          cases hbp : bst_pop (BTree.node xl xk xh xlv xb xr) with
          | some v =>
              obtain ⟨⟨ky, bal⟩, succ⟩ := v
              simp only [hbp] at h
              obtain ⟨-, hsub⟩ := bst_pop_node_some hbp
              cases ctx with
              | nil =>
                  simp only [Option.some.injEq, Prod.mk.injEq] at h
                  right
                  rw [← h.1]
                  exact hsub
              | cons f ctx' =>
                  cases hdl : deleteLoop P fuel (assemble f succ) f.dir bal ctx' with
                  | none => simp only [hdl] at h; exact Option.noConfusion h
                  | some t' =>
                      simp only [hdl] at h
                      simp only [Option.some.injEq, Prod.mk.injEq] at h
                      right
                      rw [← h.1]
                      have hio := deleteLoop_inorder hP fuel ctx' _ _ _ _ hdl
                      rw [hio, inorder_assemble]
                      exact inorderZ_sublist (f :: ctx') hsub
          | none =>
              simp only [hbp] at h
              cases hsc : swapCore xl xk xh xlv xb xr with
              | none => simp only [hsc] at h; exact Option.noConfusion h
              | some v =>
                  obtain ⟨focus, xp, bal, ctx2, removed⟩ := v
                  simp only [hsc] at h
                  cases hdl : deleteLoop P fuel focus xp bal (ctx2 ++ ctx) with
                  | none => simp only [hdl] at h; exact Option.noConfusion h
                  | some t' =>
                      simp only [hdl] at h
                      simp only [Option.some.injEq, Prod.mk.injEq] at h
                      right
                      rw [← h.1]
                      have hio := deleteLoop_inorder hP fuel _ _ _ _ _ hdl
                      rw [hio, inorderZ_append, (swapCore_inorder hsc).2]
                      refine inorderZ_sublist ctx ?_
                      rw [inorder]
                      exact (List.sublist_cons_self xk _).append_left _

theorem bst_delete_pairwise [LinearOrder α] {P : TreeBalance α β}
    (hP : ∀ ir t xp bal t' off, P.rebalance_delete ir t xp bal = some (t', off) →
      inorder t' = inorder t)
    {fuel : Nat} {t res : BTree α β} {k : α} {rk : Option α}
    (hs : (inorder t).Pairwise (· < ·))
    (h : bst_delete P fuel t k = some (res, rk)) :
    (inorder res).Pairwise (· < ·) := by
  rcases delFind_sublist hP fuel k t [] t res rk h with h1 | h1
  · rw [h1]; exact hs
  · exact hs.sublist h1

theorem bst_rotate_inorder {t t' : BTree α β} {d : TreePath}
    (h : bst_rotate t d = some t') : inorder t' = inorder t := by
  cases t with
  | nil => exact Option.noConfusion h
  | node l k hh lv b r =>
      cases d with
      | Left =>
          cases l with
          | nil => exact Option.noConfusion h
          | node xl xk xh xlv xb xr =>
              simp only [bst_rotate, Option.some.injEq] at h
              rw [← h]
              simp only [setChild, getChild, updateRoot, TreePath.reflect, inorder]
              rw [List.append_assoc]
              rfl
      | Right =>
          cases r with
          | nil => exact Option.noConfusion h
          | node xl xk xh xlv xb xr =>
              simp only [bst_rotate, Option.some.injEq] at h
              rw [← h]
              simp only [setChild, getChild, updateRoot, TreePath.reflect, inorder]
              rw [List.append_assoc]
              rfl

theorem setChild_inorder {t c : BTree α β} {d : TreePath}
    (hc : inorder c = inorder (getChild t d)) (hne : t ≠ .nil) :
    inorder (setChild t d c) = inorder t := by
  cases t with
  | nil => exact absurd rfl hne
  | node l k hh lv b r =>
      cases d with
      | Left => simp only [setChild, inorder, getChild] at *; rw [hc]
      | Right => simp only [setChild, inorder, getChild] at *; rw [hc]

theorem inspectorRotate_inorder [LinearOrder α] {t t' : BTree α β}
    {c : TreePath × TreePath} (h : inspectorRotate t c = some t') :
    inorder t' = inorder t := by
  rw [inspectorRotate] at h
  split_ifs at h
  · cases hgc : getChild t c.1 with
    | nil => rw [hgc] at h; exact Option.noConfusion h
    | node a1 a2 a3 a4 a5 a6 =>
        simp only [hgc] at h
        cases hir : bst_rotate (BTree.node a1 a2 a3 a4 a5 a6) c.2 with
        | none => simp only [hir] at h; exact Option.noConfusion h
        | some c' =>
            simp only [hir] at h
            have h1 : inorder c' = inorder (getChild t c.1) := by
              rw [bst_rotate_inorder hir, hgc]
            have hne : t ≠ .nil := by
              intro hq
              rw [hq] at hgc
              simp [getChild] at hgc
            rw [bst_rotate_inorder h, setChild_inorder h1 hne]
  · exact bst_rotate_inorder h

theorem setColor_inorder {t : BTree α RBColor} {c : RBColor} :
    inorder (setColor t c) = inorder t := by
  cases t <;> rfl

theorem setChildColor_inorder {t t' : BTree α RBColor} {d : TreePath}
    {c : RBColor} (h : setChildColor t d c = some t') :
    inorder t' = inorder t := by
  rw [setChildColor] at h
  cases hgc : getChild t d with
  | nil => rw [hgc] at h; exact Option.noConfusion h
  | node a1 a2 a3 a4 a5 a6 =>
      simp only [hgc, Option.some.injEq] at h
      have hne : t ≠ .nil := by
        intro hq
        rw [hq] at hgc
        simp [getChild] at hgc
      rw [← h]
      refine setChild_inorder ?_ hne
      rw [hgc, setColor_inorder]

theorem rbRebalanceInsert_inorder [LinearOrder α] (ir : Bool)
    {t t' : BTree α RBColor} {pc : TreePath × TreePath} {off : NodeOffset}
    (h : rbRebalanceInsert ir t pc = some (t', off)) : inorder t' = inorder t := by
  simp only [rbRebalanceInsert] at h
  cases hg : getChild t pc.1 with
  | nil => simp only [hg] at h; exact Option.noConfusion h
  | node a1 a2 a3 a4 a5 a6 =>
      simp only [hg] at h
      split_ifs at h with hA hB hC
      · simp only [Option.some.injEq, Prod.mk.injEq] at h
        rw [h.1]
      · simp only [Option.some.injEq, Prod.mk.injEq] at h
        rw [h.1]
      · split at h
        · cases hc1 : setChildColor t .Right .Black with
          | none => simp only [hc1] at h; exact Option.noConfusion h
          | some t1 =>
              simp only [hc1] at h
              cases hc2 : setChildColor t1 .Left .Black with
              | none => simp only [hc2] at h; exact Option.noConfusion h
              | some t2 =>
                  simp only [hc2, Option.some.injEq, Prod.mk.injEq] at h
                  rw [← h.1, setChildColor_inorder hc2, setChildColor_inorder hc1]
        · cases hro : inspectorRotate t (pc.1, pc.2) with
          | none => simp only [hro] at h; exact Option.noConfusion h
          | some t1 =>
              simp only [hro] at h
              cases hc1 : setChildColor t1 pc.1.reflect .Red with
              | none => simp only [hc1] at h; exact Option.noConfusion h
              | some t2 =>
                  simp only [hc1, Option.some.injEq, Prod.mk.injEq] at h
                  rw [← h.1, setColor_inorder, setChildColor_inorder hc1,
                    inspectorRotate_inorder hro]
        · simp only [Option.some.injEq, Prod.mk.injEq] at h
          rw [h.1]
      · split at h
        · cases hc1 : setChildColor t .Right .Black with
          | none => simp only [hc1] at h; exact Option.noConfusion h
          | some t1 =>
              simp only [hc1] at h
              cases hc2 : setChildColor t1 .Left .Black with
              | none => simp only [hc2] at h; exact Option.noConfusion h
              | some t2 =>
                  simp only [hc2, Option.some.injEq, Prod.mk.injEq] at h
                  rw [← h.1, setColor_inorder, setChildColor_inorder hc2,
                    setChildColor_inorder hc1]
        · cases hro : inspectorRotate t (pc.1, pc.2) with
          | none => simp only [hro] at h; exact Option.noConfusion h
          | some t1 =>
              simp only [hro] at h
              cases hc1 : setChildColor t1 pc.1.reflect .Red with
              | none => simp only [hc1] at h; exact Option.noConfusion h
              | some t2 =>
                  simp only [hc1, Option.some.injEq, Prod.mk.injEq] at h
                  rw [← h.1, setColor_inorder, setChildColor_inorder hc1,
                    inspectorRotate_inorder hro]
        · simp only [Option.some.injEq, Prod.mk.injEq] at h
          rw [h.1]

theorem rbRebalanceDelete_inorder [LinearOrder α] (ir : Bool)
    {t t' : BTree α RBColor} {xp : TreePath} {popped : RBColor} {off : NodeOffset}
    (h : rbRebalanceDelete ir t xp popped = some (t', off)) :
    inorder t' = inorder t := by
  simp only [rbRebalanceDelete] at h
  split_ifs at h with h1 h2 h3
  · simp only [Option.some.injEq, Prod.mk.injEq] at h
    rw [h.1]
  · split at h
    · rename_i pth heq
      cases hro : inspectorRotate t (xp.reflect, pth) with
      | none => simp only [hro] at h; exact Option.noConfusion h
      | some t1 =>
          simp only [hro] at h
          cases hc1 : setChildColor t1 .Right .Black with
          | none => simp only [hc1] at h; exact Option.noConfusion h
          | some t2 =>
              simp only [hc1] at h
              cases hc2 : setChildColor t2 .Left .Black with
              | none => simp only [hc2] at h; exact Option.noConfusion h
              | some t3 =>
                  simp only [hc2, Option.some.injEq, Prod.mk.injEq] at h
                  rw [← h.1, setColor_inorder, setChildColor_inorder hc2,
                    setChildColor_inorder hc1, inspectorRotate_inorder hro]
    · have ht1 : inorder (match setChildColor t xp.reflect .Red with
          | none => t
          | some u => u) = inorder t := by
        cases hcs : setChildColor t xp.reflect .Red with
        | none => rfl
        | some w => exact setChildColor_inorder hcs
      split at h
      · simp only [Option.some.injEq, Prod.mk.injEq] at h
        rw [← h.1]
        exact ht1
      · simp only [Option.some.injEq, Prod.mk.injEq] at h
        rw [← h.1, setColor_inorder]
        exact ht1
  · cases hro : inspectorRotate t (xp.reflect, xp.reflect) with
    | none => simp only [hro] at h; exact Option.noConfusion h
    | some t1 =>
        simp only [hro] at h
        cases hc1 : setChildColor t1 xp .Red with
        | none => simp only [hc1] at h; exact Option.noConfusion h
        | some t2 =>
            simp only [hc1, Option.some.injEq, Prod.mk.injEq] at h
            rw [← h.1, setColor_inorder, setChildColor_inorder hc1,
              inspectorRotate_inorder hro]
  · cases hc1 : setChildColor t xp .Black with
    | none => simp only [hc1] at h; exact Option.noConfusion h
    | some t1 =>
        simp only [hc1, Option.some.injEq, Prod.mk.injEq] at h
        rw [← h.1]
        exact setChildColor_inorder hc1

/-- The repository-provided Red-Black policy satisfies the
in-order-preservation hypothesis of the BST-invariant theorem: its
callbacks only rotate and recolor. -/
theorem redblack_preservesInorder [LinearOrder α] :
    PreservesInorder (RedBlackBalance (α := α)) :=
  ⟨fun ir _ _ _ _ h => rbRebalanceInsert_inorder ir h,
   fun ir _ _ _ _ _ h => rbRebalanceDelete_inorder ir h⟩

theorem unbalanced_preservesInorder [LinearOrder α] :
    PreservesInorder (UnbalancedBalance (α := α)) := by
  constructor
  · intro ir t pc t' off h
    simp only [UnbalancedBalance, Option.some.injEq, Prod.mk.injEq] at h
    rw [h.1]
  · intro ir t xp bal t' off h
    simp only [UnbalancedBalance, Option.some.injEq, Prod.mk.injEq] at h
    rw [h.1]

/-- C1. For every balancing policy whose rebalance callbacks preserve the
in-order key sequence of the subtree they act on (true of anything built
from the `NodeInspector`, whose only structural mutator is the
order-preserving `rotate`), every sequence of public inserts and deletes
starting from the empty tree that returns produces a tree whose in-order
key sequence is strictly increasing.  Prefixes of a sequence are sequences,
so the invariant holds after every public operation returns. -/
theorem insert_delete_sequences_sorted [LinearOrder α] (P : TreeBalance α β)
    (hP : PreservesInorder P) (fuel : Nat) (ops : List (TreeOp α))
    (t : BTree α β) (h : applyOps P fuel ops .nil = some t) :
    List.Chain' (· < ·) (inorder t) := by
  rw [List.chain'_iff_pairwise]
  obtain ⟨hPi, hPd⟩ := hP
  have main : ∀ (ops : List (TreeOp α)) (t0 t1 : BTree α β),
      (inorder t0).Pairwise (· < ·) → applyOps P fuel ops t0 = some t1 →
      (inorder t1).Pairwise (· < ·) := by
    intro ops
    induction ops with
    | nil =>
        intro t0 t1 hs h
        simp only [applyOps, Option.some.injEq] at h
        rw [← h]
        exact hs
    | cons op ops ih =>
        intro t0 t1 hs h
        simp only [applyOps] at h
        cases hop : applyOp P fuel t0 op with
        | none => simp only [hop] at h; exact Option.noConfusion h
        | some t2 =>
            simp only [hop] at h
            refine ih t2 t1 ?_ h
            cases op with
            | ins k2 =>
                simp only [applyOp] at hop
                exact bst_insert_pairwise hPi hs hop
            | del k2 =>
                simp only [applyOp] at hop
                cases hbd : bst_delete P fuel t0 k2 with
                | none => rw [hbd] at hop; exact Option.noConfusion hop
                | some v =>
                    obtain ⟨res, rk⟩ := v
                    rw [hbd] at hop
                    simp only [Option.map_some', Option.some.injEq] at hop
                    rw [← hop]
                    exact bst_delete_pairwise hPd hs hbd
            | fnd k2 =>
                simp only [applyOp, Option.some.injEq] at hop
                rw [← hop]
                exact hs
  exact main ops .nil t (by simp [inorder]) h

/-- Companion witness for `insert_delete_sequences_sorted` at a concrete
operation sequence on the no-op policy. -/
theorem insert_delete_sequences_sorted_witness :
    List.Chain' (· < ·)
      (inorder (.node (.node .nil 1 1 1 () .nil) 3 2 1 () .nil : BTree ℕ Unit)) :=
  insert_delete_sequences_sorted UnbalancedBalance unbalanced_preservesInorder 5
    [.ins 2, .ins 1, .ins 3, .del 2] _ (by decide)

theorem cacheOK_updateRoot {t : BTree α β} (h : CacheOKb t) :
    CacheOK (updateRoot t) := by
  cases t with
  | nil => trivial
  | node l k hh lv b r => exact ⟨h.1, h.2, rfl, rfl⟩

theorem cacheOKb_of_cacheOK {t : BTree α β} (h : CacheOK t) : CacheOKb t := by
  cases t with
  | nil => trivial
  | node l k hh lv b r => exact ⟨h.1, h.2.1⟩

theorem cacheOKb_assemble {f : Frame α β} {m : BTree α β}
    (hm : CacheOK m) (hs : CacheOK f.sib) : CacheOKb (assemble f m) := by
  obtain ⟨d, k, hh, lv, b, s⟩ := f
  cases d with
  | Left => exact ⟨hm, hs⟩
  | Right => exact ⟨hs, hm⟩

theorem plugUpdate_cacheOK :
    ∀ (ctx : Ctx α β) (t : BTree α β), CacheOK t →
      (∀ f ∈ ctx, CacheOK f.sib) → CacheOK (plugUpdate t ctx) := by
  intro ctx
  induction ctx with
  | nil => intro t h _; exact h
  | cons f ctx' ih =>
      intro t h hctx
      rw [plugUpdate]
      refine ih _ (cacheOK_updateRoot (cacheOKb_assemble h ?_)) ?_
      · exact hctx f (List.mem_cons_self _ _)
      · intro g hg
        exact hctx g (List.mem_cons_of_mem _ hg)

theorem insertLoop_cacheOK [LinearOrder α] {P : TreeBalance α β}
    (hP : ∀ ir t pc t' off, P.rebalance_insert ir t pc = some (t', off) →
      CacheOKb t → CacheOKb t') :
    ∀ (ctx : Ctx α β) (r : BTree α β) (pp xp : TreePath) (res : BTree α β),
      insertLoop P ctx r pp xp = some res → CacheOKb r →
      (∀ f ∈ ctx, CacheOK f.sib) → CacheOK res := by
  intro ctx
  induction ctx with
  | nil =>
      intro r pp xp res h hr _
      rw [insertLoop_nil] at h
      split at h
      · exact Option.noConfusion h
      · rename_i cur off hcb
        have hcur : CacheOKb cur := hP _ _ _ _ _ hcb hr
        cases off with
        | Root =>
            simp only [Option.some.injEq] at h
            rw [← h]
            exact cacheOK_updateRoot hcur
        | Parent =>
            simp only [Option.some.injEq] at h
            rw [← h]
            exact cacheOK_updateRoot hcur
        | Child d => exact Option.noConfusion h
  | cons f ctx' ih =>
      intro r pp xp res h hr hctx
      rw [insertLoop_cons] at h
      split at h
      · exact Option.noConfusion h
      · rename_i cur off hcb
        have hcur : CacheOKb cur := hP _ _ _ _ _ hcb hr
        cases off with
        | Root =>
            simp only [Option.some.injEq] at h
            rw [← h]
            exact plugUpdate_cacheOK _ _ (cacheOK_updateRoot hcur) hctx
        | Parent =>
            cases hrk : rootKey (updateRoot cur) with
            | none => simp only [hrk] at h; exact Option.noConfusion h
            | some ck =>
                simp only [hrk] at h
                cases hpl : findPlacement f.key ck with
                | none => simp only [hpl] at h; exact Option.noConfusion h
                | some pl =>
                    simp only [hpl] at h
                    refine ih _ _ _ _ h ?_ ?_
                    · exact cacheOKb_assemble (cacheOK_updateRoot hcur)
                        (hctx f (List.mem_cons_self _ _))
                    · intro g hg
                      exact hctx g (List.mem_cons_of_mem _ hg)
        | Child d => exact Option.noConfusion h

theorem deleteLoop_cacheOK [LinearOrder α] {P : TreeBalance α β}
    (hP : ∀ ir t xp bal t' off, P.rebalance_delete ir t xp bal = some (t', off) →
      CacheOKb t → CacheOKb t') :
    ∀ (fuel : Nat) (ctx : Ctx α β) (r : BTree α β) (xp : TreePath) (bal : β)
      (res : BTree α β),
      deleteLoop P fuel r xp bal ctx = some res → CacheOKb r →
      (∀ f ∈ ctx, CacheOK f.sib) → CacheOK res := by
  intro fuel
  induction fuel with
  | zero =>
      intro ctx r xp bal res h _ _
      simp only [deleteLoop] at h
      exact Option.noConfusion h
  | succ fuel ih =>
      intro ctx r xp bal res h hr hctx
      simp only [deleteLoop] at h
      split at h
      · exact Option.noConfusion h
      · rename_i cur off hcb
        have hcur : CacheOKb cur := hP _ _ _ _ _ _ hcb hr
        have hupd : CacheOK (updateRoot cur) := cacheOK_updateRoot hcur
        cases off with
        | Root =>
            simp only [Option.some.injEq] at h
            rw [← h]
            exact plugUpdate_cacheOK _ _ hupd hctx
        | Parent =>
            cases ctx with
            | nil =>
                simp only [Option.some.injEq] at h
                rw [← h]
                exact hupd
            | cons f ctx' =>
                cases hrk : rootKey (updateRoot cur) with
                | none => simp only [hrk] at h; exact Option.noConfusion h
                | some ck =>
                    simp only [hrk] at h
                    cases hpl : findPlacement f.key ck with
                    | none => simp only [hpl] at h; exact Option.noConfusion h
                    | some pl =>
                        simp only [hpl] at h
                        refine ih _ _ _ _ _ h ?_ ?_
                        · exact cacheOKb_assemble hupd
                            (hctx f (List.mem_cons_self _ _))
                        · intro g hg
                          exact hctx g (List.mem_cons_of_mem _ hg)
        | Child d =>
            cases hu : updateRoot cur with
            | nil => simp only [hu] at h; exact Option.noConfusion h
            | node l k hh lv b r2 =>
                rw [hu] at hupd
                simp only [hu] at h
                cases d with
                | Left =>
                    cases l with
                    | nil => exact Option.noConfusion h
                    | node a1 a2 a3 a4 a5 a6 =>
                        have h' : deleteLoop P fuel (BTree.node a1 a2 a3 a4 a5 a6)
                            .Left bal (⟨.Left, k, hh, lv, b, r2⟩ :: ctx) = some res := h
                        refine ih _ _ _ _ _ h' (cacheOKb_of_cacheOK hupd.1) ?_
                        intro g hg
                        rw [List.mem_cons] at hg
                        rcases hg with hg | hg
                        · rw [hg]; exact hupd.2.1
                        · exact hctx g hg
                | Right =>
                    cases r2 with
                    | nil => exact Option.noConfusion h
                    | node a1 a2 a3 a4 a5 a6 =>
                        have h' : deleteLoop P fuel (BTree.node a1 a2 a3 a4 a5 a6)
                            .Right bal (⟨.Right, k, hh, lv, b, l⟩ :: ctx) = some res := h
                        refine ih _ _ _ _ _ h' (cacheOKb_of_cacheOK hupd.2.1) ?_
                        intro g hg
                        rw [List.mem_cons] at hg
                        rcases hg with hg | hg
                        · rw [hg]; exact hupd.1
                        · exact hctx g hg

theorem insGo_cacheOK [LinearOrder α] {P : TreeBalance α β} {k : α}
    (hP : ∀ ir t pc t' off, P.rebalance_insert ir t pc = some (t', off) →
      CacheOKb t → CacheOKb t') :
    ∀ (t : BTree α β) (ctx : Ctx α β) (t0 res : BTree α β),
      insGo P k t ctx t0 = some res → CacheOK t →
      (∀ f ∈ ctx, CacheOK f.sib) → CacheOK t0 → CacheOK res := by
  intro t
  induction t with
  | nil =>
      intro ctx t0 res h _ hctx h0
      simp only [insGo] at h
      cases ctx with
      | nil =>
          simp only [Option.some.injEq] at h
          rw [← h]
          exact ⟨trivial, trivial, rfl, rfl⟩
      | cons f ctx' =>
          have hleaf : CacheOK (BTree.node .nil k 1 1 P.new .nil) :=
            ⟨trivial, trivial, rfl, rfl⟩
          have hp' : CacheOK (updateRoot (assemble f (BTree.node .nil k 1 1 P.new .nil))) :=
            cacheOK_updateRoot (cacheOKb_assemble hleaf (hctx f (List.mem_cons_self _ _)))
          cases ctx' with
          | nil =>
              simp only [Option.some.injEq] at h
              rw [← h]
              exact hp'
          | cons g ctx'' =>
              cases hrk : rootKey (updateRoot (assemble f
                  (BTree.node .nil k 1 1 P.new .nil))) with
              | none => simp only [hrk] at h; exact Option.noConfusion h
              | some pk =>
                  simp only [hrk] at h
                  cases hpl : findPlacement g.key pk with
                  | none => simp only [hpl] at h; exact Option.noConfusion h
                  | some pl =>
                      simp only [hpl] at h
                      refine insertLoop_cacheOK hP _ _ _ _ _ h ?_ ?_
                      · exact cacheOKb_assemble hp'
                          (hctx g (List.mem_cons_of_mem _ (List.mem_cons_self _ _)))
                      · intro g2 hg2
                        exact hctx g2 (List.mem_cons_of_mem _ (List.mem_cons_of_mem _ hg2))
  | node l ky hh lv b r ihl ihr =>
      intro ctx t0 res h ht hctx h0
      simp only [insGo] at h
      cases hc : cmp3 k ky with
      | eq =>
          rw [hc] at h
          simp only [Option.some.injEq] at h
          rw [← h]
          exact h0
      | lt =>
          rw [hc] at h
          refine ihl _ _ _ h ht.1 ?_ h0
          intro g hg
          rw [List.mem_cons] at hg
          rcases hg with hg | hg
          · rw [hg]; exact ht.2.1
          · exact hctx g hg
      | gt =>
          rw [hc] at h
          refine ihr _ _ _ h ht.2.1 ?_ h0
          intro g hg
          rw [List.mem_cons] at hg
          rcases hg with hg | hg
          · rw [hg]; exact ht.1
          · exact hctx g hg

theorem lmPop_cacheOK : ∀ (t : BTree α β) (pr : α × β)
    (s : BTree α β ⊕ BTree α β × Ctx α β),
    lmPop t = some (pr, s) → CacheOK t → CacheRest s := by
  intro t
  induction t with
  | nil => intro pr s h _; exact Option.noConfusion h
  | node xl xk xh xlv xb xr ihl ihr =>
      intro pr s h ht
      simp only [lmPop] at h
      cases hxl : lmPop xl with
      | none =>
          rw [hxl] at h
          simp only [Option.some.injEq, Prod.mk.injEq] at h
          rw [← h.2]
          exact ht.2.1
      | some v =>
          obtain ⟨pr', s'⟩ := v
          rw [hxl] at h
          cases s' with
          | inl succ =>
              simp only [Option.some.injEq, Prod.mk.injEq] at h
              rw [← h.2]
              have hrest : CacheRest (Sum.inl succ) := ihl _ _ hxl ht.1
              exact ⟨⟨hrest, ht.2.1⟩, by intro f hf; exact absurd hf (List.not_mem_nil f)⟩
          | inr fz =>
              obtain ⟨focus, frames⟩ := fz
              simp only [Option.some.injEq, Prod.mk.injEq] at h
              rw [← h.2]
              have hrest : CacheRest (Sum.inr (focus, frames)) := ihl _ _ hxl ht.1
              refine ⟨hrest.1, ?_⟩
              intro f hf
              rw [List.mem_append] at hf
              rcases hf with hf | hf
              · exact hrest.2 f hf
              · rw [List.mem_singleton] at hf
                rw [hf]
                exact ht.2.1

theorem swapCore_cacheOK [LinearOrder α] {l r focus : BTree α β} {ky old : α}
    {h lv : Nat} {b bal : β} {xp : TreePath} {ctx2 : Ctx α β}
    (hsc : swapCore l ky h lv b r = some (focus, xp, bal, ctx2, old))
    (hl : CacheOK l) (hr : CacheOK r) :
    CacheOKb focus ∧ ∀ f ∈ ctx2, CacheOK f.sib := by
  cases r with
  | nil => exact Option.noConfusion hsc
  | node rl rk rh rlv rb rr =>
      simp only [swapCore] at hsc
      cases hlm : lmPop (BTree.node rl rk rh rlv rb rr) with
      | none => simp only [hlm] at hsc; exact Option.noConfusion hsc
      | some v =>
          obtain ⟨⟨pk, pb⟩, s⟩ := v
          simp only [hlm] at hsc
          have hrest := lmPop_cacheOK _ _ _ hlm hr
          cases s with
          | inl succ =>
              cases hrk : replace_key (BTree.node l ky h lv b succ) pk with
              | none => simp only [hrk] at hsc; exact Option.noConfusion hsc
              | some v2 =>
                  obtain ⟨old', tgt'⟩ := v2
                  simp only [hrk] at hsc
                  simp only [Option.some.injEq, Prod.mk.injEq] at hsc
                  obtain ⟨hf, -, -, hc2, -⟩ := hsc
                  obtain ⟨-, ht'⟩ := replace_key_some hrk
                  subst hf
                  subst ht'
                  refine ⟨⟨hl, hrest⟩, ?_⟩
                  rw [← hc2]
                  intro f hf
                  exact absurd hf (List.not_mem_nil f)
          | inr fz =>
              obtain ⟨focus', frames⟩ := fz
              cases hrk : replace_key
                  (BTree.node l ky h lv b (BTree.node rl rk rh rlv rb rr)) pk with
              | none => simp only [hrk] at hsc; exact Option.noConfusion hsc
              | some v2 =>
                  obtain ⟨old', tgt'⟩ := v2
                  simp only [hrk] at hsc
                  simp only [Option.some.injEq, Prod.mk.injEq] at hsc
                  obtain ⟨hf, -, -, hc2, -⟩ := hsc
                  subst hf
                  refine ⟨hrest.1, ?_⟩
                  rw [← hc2]
                  intro f hf
                  rw [List.mem_append] at hf
                  rcases hf with hf | hf
                  · exact hrest.2 f hf
                  · rw [List.mem_singleton] at hf
                    rw [hf]
                    exact hl

theorem bst_pop_succ_cases {xl xr succ : BTree α β} {xk : α}
    {xh xlv : Nat} {xb : β} {pr : α × β}
    (h : bst_pop (.node xl xk xh xlv xb xr) = some (pr, succ)) :
    succ = xr ∨ succ = xl := by
  cases xl with
  | nil =>
      cases xr with
      | nil =>
          simp only [bst_pop, Option.some.injEq, Prod.mk.injEq] at h
          exact Or.inl h.2.symm
      | node a1 a2 a3 a4 a5 a6 =>
          simp only [bst_pop, Option.some.injEq, Prod.mk.injEq] at h
          exact Or.inl h.2.symm
  | node a1 a2 a3 a4 a5 a6 =>
      cases xr with
      | nil =>
          simp only [bst_pop, Option.some.injEq, Prod.mk.injEq] at h
          exact Or.inr h.2.symm
      | node b1 b2 b3 b4 b5 b6 => simp [bst_pop] at h

theorem delFind_cacheOK [LinearOrder α] {P : TreeBalance α β}
    (hP : ∀ ir t xp bal t' off, P.rebalance_delete ir t xp bal = some (t', off) →
      CacheOKb t → CacheOKb t') (fuel : Nat) (k : α) :
    ∀ (t : BTree α β) (ctx : Ctx α β) (t0 res : BTree α β) (rk : Option α),
      delFind P fuel k t ctx t0 = some (res, rk) → CacheOK t →
      (∀ f ∈ ctx, CacheOK f.sib) → CacheOK t0 → CacheOK res := by
  intro t
  induction t with
  | nil =>
      intro ctx t0 res rk h _ _ h0
      simp only [delFind, Option.some.injEq, Prod.mk.injEq] at h
      rw [← h.1]
      exact h0
  | node xl xk xh xlv xb xr ihl ihr =>
      intro ctx t0 res rk h ht hctx h0
      simp only [delFind] at h
      cases hc : cmp3 k xk with
      | lt =>
          rw [hc] at h
          refine ihl _ _ _ _ h ht.1 ?_ h0
          intro g hg
          rw [List.mem_cons] at hg
          rcases hg with hg | hg
          · rw [hg]; exact ht.2.1
          · exact hctx g hg
      | gt =>
          rw [hc] at h
          refine ihr _ _ _ _ h ht.2.1 ?_ h0
          intro g hg
          rw [List.mem_cons] at hg
          rcases hg with hg | hg
          · rw [hg]; exact ht.1
          · exact hctx g hg
      | eq =>
          simp only [hc] at h
          cases hbp : bst_pop (BTree.node xl xk xh xlv xb xr) with
          | some v =>
              obtain ⟨⟨ky, bal⟩, succ⟩ := v
              simp only [hbp] at h
              have hsucc : CacheOK succ := by
                rcases bst_pop_succ_cases hbp with hq | hq
                · rw [hq]; exact ht.2.1
                · rw [hq]; exact ht.1
              cases ctx with
              | nil =>
                  simp only [Option.some.injEq, Prod.mk.injEq] at h
                  rw [← h.1]
                  exact hsucc
              | cons f ctx' =>
                  cases hdl : deleteLoop P fuel (assemble f succ) f.dir bal ctx' with
                  | none => simp only [hdl] at h; exact Option.noConfusion h
                  | some t' =>
                      simp only [hdl, Option.some.injEq, Prod.mk.injEq] at h
                      rw [← h.1]
                      refine deleteLoop_cacheOK hP fuel ctx' _ _ _ _ hdl ?_ ?_
                      · exact cacheOKb_assemble hsucc (hctx f (List.mem_cons_self _ _))
                      · intro g hg
                        exact hctx g (List.mem_cons_of_mem _ hg)
          | none =>
              simp only [hbp] at h
              cases hsc : swapCore xl xk xh xlv xb xr with
              | none => simp only [hsc] at h; exact Option.noConfusion h
              | some v =>
                  obtain ⟨focus, xp, bal, ctx2, removed⟩ := v
                  simp only [hsc] at h
                  cases hdl : deleteLoop P fuel focus xp bal (ctx2 ++ ctx) with
                  | none => simp only [hdl] at h; exact Option.noConfusion h
                  | some t' =>
                      simp only [hdl, Option.some.injEq, Prod.mk.injEq] at h
                      rw [← h.1]
                      obtain ⟨hfb, hc2⟩ := swapCore_cacheOK hsc ht.1 ht.2.1
                      refine deleteLoop_cacheOK hP fuel _ _ _ _ _ hdl hfb ?_
                      intro g hg
                      rw [List.mem_append] at hg
                      rcases hg with hg | hg
                      · exact hc2 g hg
                      · exact hctx g hg

theorem cacheOK_getChild {t : BTree α β} {d : TreePath} (h : CacheOK t) :
    CacheOK (getChild t d) := by
  cases t with
  | nil => trivial
  | node l k hh lv b r =>
      cases d with
      | Left => exact h.1
      | Right => exact h.2.1

theorem cacheOKb_getChild {t : BTree α β} {d : TreePath} (h : CacheOKb t) :
    CacheOK (getChild t d) := by
  cases t with
  | nil => trivial
  | node l k hh lv b r =>
      cases d with
      | Left => exact h.1
      | Right => exact h.2

theorem cacheOK_setColor {t : BTree α RBColor} {c : RBColor} (h : CacheOK t) :
    CacheOK (setColor t c) := by
  cases t with
  | nil => trivial
  | node l k hh lv b r => exact h

theorem cacheOKb_setColor {t : BTree α RBColor} {c : RBColor} (h : CacheOKb t) :
    CacheOKb (setColor t c) := by
  cases t with
  | nil => trivial
  | node l k hh lv b r => exact h

theorem setChildColor_cacheOKb {t t' : BTree α RBColor} {d : TreePath}
    {c : RBColor} (h : setChildColor t d c = some t') (ht : CacheOKb t) :
    CacheOKb t' := by
  rw [setChildColor] at h
  cases t with
  | nil => exact Option.noConfusion h
  | node l k hh lv b r =>
      cases d with
      | Left =>
          cases l with
          | nil => exact Option.noConfusion h
          | node a1 a2 a3 a4 a5 a6 =>
              simp only [getChild, Option.some.injEq] at h
              rw [← h]
              exact ⟨cacheOK_setColor ht.1, ht.2⟩
      | Right =>
          cases r with
          | nil => exact Option.noConfusion h
          | node a1 a2 a3 a4 a5 a6 =>
              simp only [getChild, Option.some.injEq] at h
              rw [← h]
              exact ⟨ht.1, cacheOK_setColor ht.2⟩

theorem bst_rotate_cacheOKb {t t' : BTree α β} {d : TreePath}
    (h : bst_rotate t d = some t') (hx : CacheOKb (getChild t d))
    (ho : CacheOK (getChild t d.reflect)) : CacheOKb t' := by
  cases t with
  | nil => exact Option.noConfusion h
  | node l k hh lv b r =>
      cases d with
      | Left =>
          cases l with
          | nil => exact Option.noConfusion h
          | node xl xk xh xlv xb xr =>
              simp only [bst_rotate, Option.some.injEq] at h
              rw [← h]
              exact ⟨hx.1, hx.2, ho, rfl, rfl⟩
      | Right =>
          cases r with
          | nil => exact Option.noConfusion h
          | node xl xk xh xlv xb xr =>
              simp only [bst_rotate, Option.some.injEq] at h
              rw [← h]
              exact ⟨⟨ho, hx.1, rfl, rfl⟩, hx.2⟩

theorem inspectorRotate_cacheOKb {t t' : BTree α β} {c : TreePath × TreePath}
    (h : inspectorRotate t c = some t') (ht : CacheOKb t) : CacheOKb t' := by
  rw [inspectorRotate] at h
  split_ifs at h
  · cases hgc : getChild t c.1 with
    | nil => rw [hgc] at h; exact Option.noConfusion h
    | node a1 a2 a3 a4 a5 a6 =>
        simp only [hgc] at h
        cases hir : bst_rotate (BTree.node a1 a2 a3 a4 a5 a6) c.2 with
        | none => simp only [hir] at h; exact Option.noConfusion h
        | some c' =>
            simp only [hir] at h
            have hc : CacheOK (getChild t c.1) := cacheOKb_getChild ht
            rw [hgc] at hc
            have hc' : CacheOKb c' :=
              bst_rotate_cacheOKb hir (cacheOKb_of_cacheOK (cacheOK_getChild hc))
                (cacheOK_getChild hc)
            cases t with
            | nil => exact Option.noConfusion h
            | node l k hh lv b r =>
                refine bst_rotate_cacheOKb h ?_ ?_
                · cases hp : c.1 with
                  | Left => exact hc'
                  | Right => exact hc'
                · cases hp : c.1 with
                  | Left => exact ht.2
                  | Right => exact ht.1
  · exact bst_rotate_cacheOKb h (cacheOKb_of_cacheOK (cacheOKb_getChild ht))
      (cacheOKb_getChild ht)

theorem rbRebalanceInsert_cacheOKb (ir : Bool)
    {t t' : BTree α RBColor} {pc : TreePath × TreePath} {off : NodeOffset}
    (h : rbRebalanceInsert ir t pc = some (t', off)) (ht : CacheOKb t) :
    CacheOKb t' := by
  simp only [rbRebalanceInsert] at h
  cases hg : getChild t pc.1 with
  | nil => simp only [hg] at h; exact Option.noConfusion h
  | node a1 a2 a3 a4 a5 a6 =>
      simp only [hg] at h
      split_ifs at h with hA hB hC
      · simp only [Option.some.injEq, Prod.mk.injEq] at h
        rw [← h.1]; exact ht
      · simp only [Option.some.injEq, Prod.mk.injEq] at h
        rw [← h.1]; exact ht
      · split at h
        · cases hc1 : setChildColor t .Right .Black with
          | none => simp only [hc1] at h; exact Option.noConfusion h
          | some t1 =>
              simp only [hc1] at h
              cases hc2 : setChildColor t1 .Left .Black with
              | none => simp only [hc2] at h; exact Option.noConfusion h
              | some t2 =>
                  simp only [hc2, Option.some.injEq, Prod.mk.injEq] at h
                  rw [← h.1]
                  exact setChildColor_cacheOKb hc2 (setChildColor_cacheOKb hc1 ht)
        · cases hro : inspectorRotate t (pc.1, pc.2) with
          | none => simp only [hro] at h; exact Option.noConfusion h
          | some t1 =>
              simp only [hro] at h
              cases hc1 : setChildColor t1 pc.1.reflect .Red with
              | none => simp only [hc1] at h; exact Option.noConfusion h
              | some t2 =>
                  simp only [hc1, Option.some.injEq, Prod.mk.injEq] at h
                  rw [← h.1]
                  exact cacheOKb_setColor
                    (setChildColor_cacheOKb hc1 (inspectorRotate_cacheOKb hro ht))
        · simp only [Option.some.injEq, Prod.mk.injEq] at h
          rw [← h.1]; exact ht
      · split at h
        · cases hc1 : setChildColor t .Right .Black with
          | none => simp only [hc1] at h; exact Option.noConfusion h
          | some t1 =>
              simp only [hc1] at h
              cases hc2 : setChildColor t1 .Left .Black with
              | none => simp only [hc2] at h; exact Option.noConfusion h
              | some t2 =>
                  simp only [hc2, Option.some.injEq, Prod.mk.injEq] at h
                  rw [← h.1]
                  exact cacheOKb_setColor
                    (setChildColor_cacheOKb hc2 (setChildColor_cacheOKb hc1 ht))
        · cases hro : inspectorRotate t (pc.1, pc.2) with
          | none => simp only [hro] at h; exact Option.noConfusion h
          | some t1 =>
              simp only [hro] at h
              cases hc1 : setChildColor t1 pc.1.reflect .Red with
              | none => simp only [hc1] at h; exact Option.noConfusion h
              | some t2 =>
                  simp only [hc1, Option.some.injEq, Prod.mk.injEq] at h
                  rw [← h.1]
                  exact cacheOKb_setColor
                    (setChildColor_cacheOKb hc1 (inspectorRotate_cacheOKb hro ht))
        · simp only [Option.some.injEq, Prod.mk.injEq] at h
          rw [← h.1]; exact ht

theorem rbRebalanceDelete_cacheOKb (ir : Bool)
    {t t' : BTree α RBColor} {xp : TreePath} {popped : RBColor} {off : NodeOffset}
    (h : rbRebalanceDelete ir t xp popped = some (t', off)) (ht : CacheOKb t) :
    CacheOKb t' := by
  simp only [rbRebalanceDelete] at h
  split_ifs at h with h1 h2 h3
  · simp only [Option.some.injEq, Prod.mk.injEq] at h
    rw [← h.1]; exact ht
  · split at h
    · rename_i pth heq
      cases hro : inspectorRotate t (xp.reflect, pth) with
      | none => simp only [hro] at h; exact Option.noConfusion h
      | some t1 =>
          simp only [hro] at h
          cases hc1 : setChildColor t1 .Right .Black with
          | none => simp only [hc1] at h; exact Option.noConfusion h
          | some t2 =>
              simp only [hc1] at h
              cases hc2 : setChildColor t2 .Left .Black with
              | none => simp only [hc2] at h; exact Option.noConfusion h
              | some t3 =>
                  simp only [hc2, Option.some.injEq, Prod.mk.injEq] at h
                  rw [← h.1]
                  exact cacheOKb_setColor (setChildColor_cacheOKb hc2
                    (setChildColor_cacheOKb hc1 (inspectorRotate_cacheOKb hro ht)))
    · have ht1 : CacheOKb (match setChildColor t xp.reflect .Red with
          | none => t
          | some u => u) := by
        cases hcs : setChildColor t xp.reflect .Red with
        | none => exact ht
        | some w => exact setChildColor_cacheOKb hcs ht
      split at h
      · simp only [Option.some.injEq, Prod.mk.injEq] at h
        rw [← h.1]; exact ht1
      · simp only [Option.some.injEq, Prod.mk.injEq] at h
        rw [← h.1]; exact cacheOKb_setColor ht1
  · cases hro : inspectorRotate t (xp.reflect, xp.reflect) with
    | none => simp only [hro] at h; exact Option.noConfusion h
    | some t1 =>
        simp only [hro] at h
        cases hc1 : setChildColor t1 xp .Red with
        | none => simp only [hc1] at h; exact Option.noConfusion h
        | some t2 =>
            simp only [hc1, Option.some.injEq, Prod.mk.injEq] at h
            rw [← h.1]
            exact cacheOKb_setColor (setChildColor_cacheOKb hc1
              (inspectorRotate_cacheOKb hro ht))
  · cases hc1 : setChildColor t xp .Black with
    | none => simp only [hc1] at h; exact Option.noConfusion h
    | some t1 =>
        simp only [hc1, Option.some.injEq, Prod.mk.injEq] at h
        rw [← h.1]
        exact setChildColor_cacheOKb hc1 ht

/-- The repository-provided Red-Black policy satisfies the cache-preservation
hypothesis of the cache-consistency theorem: its callbacks recolor (no cache
effect) and rotate (which refreshes the demoted pivot, leaving only the
returned root possibly stale for the engine to refresh). -/
theorem redblack_preservesCaches :
    PreservesCaches (RedBlackBalance (α := α)) :=
  ⟨fun ir _ _ _ _ h ht => rbRebalanceInsert_cacheOKb ir h ht,
   fun ir _ _ _ _ _ h ht => rbRebalanceDelete_cacheOKb ir h ht⟩

theorem unbalanced_preservesCaches [LinearOrder α] :
    PreservesCaches (UnbalancedBalance (α := α)) := by
  constructor
  · intro ir t pc t' off h hb
    simp only [UnbalancedBalance, Option.some.injEq, Prod.mk.injEq] at h
    rw [← h.1]
    exact hb
  · intro ir t xp bal t' off h hb
    simp only [UnbalancedBalance, Option.some.injEq, Prod.mk.injEq] at h
    rw [← h.1]
    exact hb

/-- C5. For every balancing policy whose rebalance callbacks keep all cache
fields below the returned root correct (true of anything expressible through
the `NodeInspector`: `bst_rotate` refreshes the demoted pivot and the engine
refreshes the returned node), every sequence of public operations starting
from the empty tree that returns produces a tree in which every node's
cached `height` equals `1 + max(child heights)` (absent child 0) and every
node's cached `leaves` equals the sum of the present children's leaf counts
with floor 1 — `search` takes `&self` and cannot change the tree. -/
theorem insert_delete_sequences_cache_ok [LinearOrder α] (P : TreeBalance α β)
    (hP : PreservesCaches P) (fuel : Nat) (ops : List (TreeOp α))
    (t : BTree α β) (h : applyOps P fuel ops .nil = some t) : CacheOK t := by
  obtain ⟨hPi, hPd⟩ := hP
  have main : ∀ (ops : List (TreeOp α)) (t0 t1 : BTree α β),
      CacheOK t0 → applyOps P fuel ops t0 = some t1 → CacheOK t1 := by
    intro ops
    induction ops with
    | nil =>
        intro t0 t1 hs h
        simp only [applyOps, Option.some.injEq] at h
        rw [← h]
        exact hs
    | cons op ops ih =>
        intro t0 t1 hs h
        simp only [applyOps] at h
        cases hop : applyOp P fuel t0 op with
        | none => simp only [hop] at h; exact Option.noConfusion h
        | some t2 =>
            simp only [hop] at h
            refine ih t2 t1 ?_ h
            cases op with
            | ins k2 =>
                simp only [applyOp] at hop
                exact insGo_cacheOK hPi t0 [] t0 t2 hop hs
                  (by intro f hf; exact absurd hf (List.not_mem_nil f)) hs
            | del k2 =>
                simp only [applyOp] at hop
                cases hbd : bst_delete P fuel t0 k2 with
                | none => rw [hbd] at hop; exact Option.noConfusion hop
                | some v =>
                    obtain ⟨res, rk⟩ := v
                    rw [hbd] at hop
                    simp only [Option.map_some', Option.some.injEq] at hop
                    rw [← hop]
                    exact delFind_cacheOK hPd fuel k2 t0 [] t0 res rk hbd hs
                      (by intro f hf; exact absurd hf (List.not_mem_nil f)) hs
            | fnd k2 =>
                simp only [applyOp, Option.some.injEq] at hop
                rw [← hop]
                exact hs
  exact main ops .nil t trivial h

/-- Companion witness for `insert_delete_sequences_cache_ok` at a concrete
operation sequence on the no-op policy. -/
theorem insert_delete_sequences_cache_ok_witness :
    CacheOK (.node (.node .nil 1 1 1 () .nil) 2 2 2 () (.node .nil 4 1 1 () .nil)
      : BTree ℕ Unit) :=
  insert_delete_sequences_cache_ok UnbalancedBalance unbalanced_preservesCaches 5
    [.ins 2, .ins 1, .ins 3, .ins 4, .del 3, .fnd 2] _ (by decide)

theorem rootKey_mem {t : BTree α β} {k : α} (h : rootKey t = some k) :
    k ∈ inorder t := by
  cases t with
  | nil => exact Option.noConfusion h
  | node l ky hh lv b r =>
      simp only [rootKey, Option.some.injEq] at h
      rw [← h, inorder, List.mem_append, List.mem_cons]
      exact Or.inr (Or.inl rfl)

theorem replace_key_none [LinearOrder α] {l r : BTree α β} {ky k : α}
    {h lv : Nat} {b : β}
    (hh : replace_key (.node l ky h lv b r) k = none) :
    (∃ lk, rootKey l = some lk ∧ k < lk) ∨
    (∃ rk, rootKey r = some rk ∧ rk < k) := by
  rw [replace_key] at hh
  split_ifs at hh with h1 h2
  · left
    cases hl : rootKey l with
    | none => rw [hl] at h1; exact absurd h1 (by simp)
    | some lk =>
        simp only [hl] at h1
        cases hcmp : cmp3 k lk with
        | lt => exact ⟨lk, rfl, cmp3_lt_iff.mp hcmp⟩
        | gt => rw [hcmp] at h1; exact absurd h1 (by decide)
        | eq => rw [hcmp] at h1; exact absurd h1 (by decide)
  · right
    cases hr : rootKey r with
    | none => rw [hr] at h2; exact absurd h2 (by simp)
    | some rk =>
        simp only [hr] at h2
        cases hcmp : cmp3 k rk with
        | gt => exact ⟨rk, rfl, cmp3_gt_iff.mp hcmp⟩
        | lt => rw [hcmp] at h2; exact absurd h2 (by decide)
        | eq => rw [hcmp] at h2; exact absurd h2 (by decide)

theorem swapCore_isSome_of_sorted [LinearOrder α] {l r : BTree α β} {ky : α}
    {h lv : Nat} {b : β}
    (hs : (inorder (BTree.node l ky h lv b r)).Pairwise (· < ·))
    (hr : r ≠ .nil) :
    ∃ out, swapCore l ky h lv b r = some out := by
  rw [inorder, List.pairwise_append] at hs
  obtain ⟨hL, hkR, hcross⟩ := hs
  rw [List.pairwise_cons] at hkR
  obtain ⟨hky, hRp⟩ := hkR
  cases r with
  | nil => exact absurd rfl hr
  | node rl rk rh rlv rb rr =>
      cases hlm : lmPop (BTree.node rl rk rh rlv rb rr) with
      | none => exact absurd ((lmPop_eq_none_iff _).mp hlm) (by simp)
      | some v =>
          obtain ⟨⟨pk, pb⟩, s⟩ := v
          have hri : inorder (BTree.node rl rk rh rlv rb rr) = pk :: restList s :=
            lmPop_inorder _ _ _ hlm
          have hpkR : pk ∈ inorder (BTree.node rl rk rh rlv rb rr) := by
            rw [hri]; exact List.mem_cons_self _ _
          have hkypk : ky < pk := hky pk hpkR
          have hnotlt : ∀ lk, rootKey l = some lk → ¬ pk < lk := by
            intro lk hlk hplt
            have hlkL : lk ∈ inorder l := rootKey_mem hlk
            have : lk < ky := hcross lk hlkL ky (List.mem_cons_self _ _)
            exact absurd (lt_trans this hkypk) (not_lt.mpr (le_of_lt hplt))
          rw [hri] at hRp
          cases s with
          | inl succ =>
              simp only [swapCore, hlm]
              cases hrk : replace_key (BTree.node l ky h lv b succ) pk with
              | none =>
                  rcases replace_key_none hrk with ⟨lk, hlk, hlt⟩ | ⟨sk, hsk, hlt⟩
                  · exact absurd hlt (hnotlt lk hlk)
                  · have hskm : sk ∈ inorder succ := rootKey_mem hsk
                    rw [restList] at hRp
                    rw [List.pairwise_cons] at hRp
                    exact absurd hlt (not_lt.mpr (le_of_lt (hRp.1 sk hskm)))
              | some v2 =>
                  obtain ⟨old', tgt'⟩ := v2
                  exact ⟨_, rfl⟩
          | inr fz =>
              obtain ⟨focus, frames⟩ := fz
              simp only [swapCore, hlm]
              cases hrk : replace_key
                  (BTree.node l ky h lv b (BTree.node rl rk rh rlv rb rr)) pk with
              | none =>
                  rcases replace_key_none hrk with ⟨lk, hlk, hlt⟩ | ⟨sk, hsk, hlt⟩
                  · exact absurd hlt (hnotlt lk hlk)
                  · simp only [rootKey, Option.some.injEq] at hsk
                    have hskm : sk ∈ pk :: restList (Sum.inr (focus, frames)) := by
                      rw [← hri, ← hsk]
                      rw [inorder, List.mem_append, List.mem_cons]
                      exact Or.inr (Or.inl rfl)
                    rw [List.mem_cons] at hskm
                    rcases hskm with hq | hq
                    · rw [hq] at hlt; exact absurd hlt (lt_irrefl pk)
                    · rw [List.pairwise_cons] at hRp
                      exact absurd hlt (not_lt.mpr (le_of_lt (hRp.1 sk hq)))
              | some v2 =>
                  obtain ⟨old', tgt'⟩ := v2
                  exact ⟨_, rfl⟩

/-- C10. On a delete from a tree whose in-order key sequence is strictly
increasing, the two-children swap's `replace_key` assertions (the popped
successor key is not `Less` than the left child's key and not `Greater`
than the right child's key) cannot fire: the whole swap phase `swapCore` —
whose only panic source given two children is `replace_key` — always
returns `some`. -/
theorem replace_key_assert_unreachable [LinearOrder α] (l r : BTree α β)
    (ky : α) (h lv : Nat) (b : β)
    (hs : List.Chain' (· < ·) (inorder (BTree.node l ky h lv b r)))
    (hr : r ≠ .nil) :
    ∃ out, swapCore l ky h lv b r = some out :=
  swapCore_isSome_of_sorted (List.chain'_iff_pairwise.mp hs) hr

/-- Companion witness for `replace_key_assert_unreachable` at a concrete
two-children node. -/
theorem replace_key_assert_unreachable_witness :
    ∃ out, swapCore (.node .nil 1 1 1 () .nil) 2 2 2 ()
      (.node (.nil : BTree ℕ Unit) 3 1 1 () .nil) = some out :=
  replace_key_assert_unreachable _ _ _ _ _ _
    (by rw [List.chain'_iff_pairwise]; decide) (by decide)

theorem findNode_key [LinearOrder α] {k : α} :
    ∀ (t tgt : BTree α β), findNode t k = some tgt → rootKey tgt = some k := by
  intro t
  induction t with
  | nil => intro tgt h; exact Option.noConfusion h
  | node l ky hh lv b r ihl ihr =>
      intro tgt h
      simp only [findNode] at h
      cases hc : cmp3 k ky with
      | eq =>
          rw [hc] at h
          simp only [Option.some.injEq] at h
          rw [← h, rootKey, cmp3_eq_iff.mp hc]
      | lt => rw [hc] at h; exact ihl _ h
      | gt => rw [hc] at h; exact ihr _ h

theorem findNode_mem [LinearOrder α] {k : α} :
    ∀ (t tgt : BTree α β), findNode t k = some tgt → k ∈ inorder t := by
  intro t
  induction t with
  | nil => intro tgt h; exact Option.noConfusion h
  | node l ky hh lv b r ihl ihr =>
      intro tgt h
      simp only [findNode] at h
      rw [inorder, List.mem_append, List.mem_cons]
      cases hc : cmp3 k ky with
      | eq => exact Or.inr (Or.inl (cmp3_eq_iff.mp hc))
      | lt => rw [hc] at h; exact Or.inl (ihl _ h)
      | gt => rw [hc] at h; exact Or.inr (Or.inr (ihr _ h))

theorem delIn_erase [LinearOrder α] {k : α} :
    ∀ (t tgt : BTree α β), (inorder t).Pairwise (· < ·) →
      findNode t k = some tgt → delIn t k = (inorder t).erase k := by
  intro t
  induction t with
  | nil => intro tgt _ h; exact Option.noConfusion h
  | node l ky hh lv b r ihl ihr =>
      intro tgt hs h
      rw [inorder, List.pairwise_append] at hs
      obtain ⟨hL, hkR, hcross⟩ := hs
      simp only [findNode] at h
      rw [delIn, inorder]
      cases hc : cmp3 k ky with
      | eq =>
          have hky : k = ky := cmp3_eq_iff.mp hc
          have hnotL : k ∉ inorder l := by
            intro hmem
            have := hcross k hmem ky (List.mem_cons_self _ _)
            rw [hky] at this
            exact lt_irrefl ky this
          show inorder l ++ inorder r = (inorder l ++ ky :: inorder r).erase k
          rw [List.erase_append_right _ hnotL, ← hky, List.erase_cons_head]
      | lt =>
          rw [hc] at h
          have h' : findNode l k = some tgt := h
          have hkL : k ∈ inorder l := findNode_mem _ _ h'
          show delIn l k ++ ky :: inorder r = (inorder l ++ ky :: inorder r).erase k
          rw [List.erase_append_left _ hkL, ihl _ hL h']
      | gt =>
          rw [hc] at h
          have h' : findNode r k = some tgt := h
          have hkk : ky < k := cmp3_gt_iff.mp hc
          have hnotL : k ∉ inorder l := by
            intro hmem
            have := hcross k hmem ky (List.mem_cons_self _ _)
            exact lt_irrefl k (lt_trans this hkk)
          show inorder l ++ ky :: delIn r k = (inorder l ++ ky :: inorder r).erase k
          rw [List.erase_append_right _ hnotL,
            List.erase_cons_tail (by simp [hkk.ne]), ihr _ (List.Pairwise.of_cons hkR) h']

theorem swapCore_targetKey [LinearOrder α] {l r focus : BTree α β} {ky old : α}
    {h lv : Nat} {b bal : β} {xp : TreePath} {ctx2 : Ctx α β}
    (hsc : swapCore l ky h lv b r = some (focus, xp, bal, ctx2, old)) :
    swapTargetKey (focus, xp, bal, ctx2, old) = (inorder r).head? := by
  cases r with
  | nil => exact Option.noConfusion hsc
  | node rl rk rh rlv rb rr =>
      simp only [swapCore] at hsc
      cases hlm : lmPop (BTree.node rl rk rh rlv rb rr) with
      | none => simp only [hlm] at hsc; exact Option.noConfusion hsc
      | some v =>
          obtain ⟨⟨pk, pb⟩, s⟩ := v
          simp only [hlm] at hsc
          have hri : inorder (BTree.node rl rk rh rlv rb rr) = pk :: restList s :=
            lmPop_inorder _ _ _ hlm
          cases s with
          | inl succ =>
              cases hrk : replace_key (BTree.node l ky h lv b succ) pk with
              | none => simp only [hrk] at hsc; exact Option.noConfusion hsc
              | some v2 =>
                  obtain ⟨old', tgt'⟩ := v2
                  simp only [hrk] at hsc
                  simp only [Option.some.injEq, Prod.mk.injEq] at hsc
                  obtain ⟨hf, -, -, hc2, -⟩ := hsc
                  obtain ⟨-, ht'⟩ := replace_key_some hrk
                  subst hf
                  subst ht'
                  rw [swapTargetKey, ← hc2, hri]
                  rfl
          | inr fz =>
              obtain ⟨focus', frames⟩ := fz
              cases hrk : replace_key
                  (BTree.node l ky h lv b (BTree.node rl rk rh rlv rb rr)) pk with
              | none => simp only [hrk] at hsc; exact Option.noConfusion hsc
              | some v2 =>
                  obtain ⟨old', tgt'⟩ := v2
                  simp only [hrk] at hsc
                  simp only [Option.some.injEq, Prod.mk.injEq] at hsc
                  obtain ⟨-, -, -, hc2, -⟩ := hsc
                  rw [swapTargetKey, ← hc2, hri, List.getLast?_concat]
                  rfl

theorem bst_pop_two_children {xl xr : BTree α β} {xk : α} {xh xlv : Nat}
    {xb : β} (hl : xl ≠ .nil) (hr : xr ≠ .nil) :
    bst_pop (.node xl xk xh xlv xb xr) = none := by
  cases xl with
  | nil => exact absurd rfl hl
  | node a1 a2 a3 a4 a5 a6 =>
      cases xr with
      | nil => exact absurd rfl hr
      | node b1 b2 b3 b4 b5 b6 => rfl

theorem delFind_two [LinearOrder α] {P : TreeBalance α β}
    (hP : ∀ ir t xp bal t' off, P.rebalance_delete ir t xp bal = some (t', off) →
      inorder t' = inorder t) (fuel : Nat) (k : α)
    {l r : BTree α β} {ky : α} {hh lv : Nat} {b : β}
    (hl : l ≠ .nil) (hr : r ≠ .nil) :
    ∀ (t : BTree α β) (ctx : Ctx α β) (t0 res : BTree α β) (rk : Option α),
      delFind P fuel k t ctx t0 = some (res, rk) →
      findNode t k = some (.node l ky hh lv b r) →
      rk = some ky ∧ inorder res = inorderZ ctx (delIn t k) ∧
      ∃ out, swapCore l ky hh lv b r = some out ∧ out.2.2.2.2 = ky ∧
        swapTargetKey out = (inorder r).head? := by
  intro t
  induction t with
  | nil => intro ctx t0 res rk _ hf; exact Option.noConfusion hf
  | node xl xk xh xlv xb xr ihl ihr =>
      intro ctx t0 res rk h hf
      simp only [delFind] at h
      simp only [findNode] at hf
      cases hc : cmp3 k xk with
      | lt =>
          rw [hc] at h hf
          obtain ⟨h1, h2, h3⟩ := ihl _ _ _ _ h hf
          refine ⟨h1, ?_, h3⟩
          rw [h2, inorderZ, delIn, hc]
          rfl
      | gt =>
          rw [hc] at h hf
          obtain ⟨h1, h2, h3⟩ := ihr _ _ _ _ h hf
          refine ⟨h1, ?_, h3⟩
          rw [h2, inorderZ, delIn, hc]
          rfl
      | eq =>
          simp only [hc] at h
          rw [hc] at hf
          simp only [Option.some.injEq] at hf
          obtain ⟨heq1, heq2, heq3, heq4, heq5, heq6⟩ := (BTree.node.injEq _ _ _ _ _ _ _ _ _ _ _ _).mp hf.symm
          subst heq1; subst heq2; subst heq3; subst heq4; subst heq5; subst heq6
          rw [bst_pop_two_children hl hr] at h
          cases hsc : swapCore l ky hh lv b r with
          | none => simp only [hsc] at h; exact Option.noConfusion h
          | some v =>
              obtain ⟨focus, xp, bal, ctx2, removed⟩ := v
              simp only [hsc] at h
              cases hdl : deleteLoop P fuel focus xp bal (ctx2 ++ ctx) with
              | none => simp only [hdl] at h; exact Option.noConfusion h
              | some t' =>
                  simp only [hdl, Option.some.injEq, Prod.mk.injEq] at h
                  obtain ⟨hres, hrk⟩ := h
                  obtain ⟨hold, hino⟩ := swapCore_inorder hsc
                  subst hold
                  refine ⟨hrk.symm, ?_,
                    ⟨(focus, xp, bal, ctx2, removed), rfl, rfl, swapCore_targetKey hsc⟩⟩
                  rw [← hres, deleteLoop_inorder hP fuel _ _ _ _ _ hdl,
                    inorderZ_append, hino, delIn, hc]

/-- C2. For every policy with in-order preserving callbacks, if the
search-descent for `k` in a sorted tree reaches a node with two children,
then a `bst_delete` of `k` that returns reports `Some k` — the originally
requested key, which `replace_key` handed back when the in-order
successor's key was written into the target node — the resulting in-order
sequence is the original with `k` removed, and the swap phase popped the
in-order successor: the key written into the target position is the FIRST
key of the right subtree's in-order sequence (the leftmost node, which
`bst_pop` could pop because it has no left child). -/
theorem delete_two_children_returns_requested_key [LinearOrder α]
    (P : TreeBalance α β) (hP : PreservesInorder P) (fuel : Nat)
    (t res : BTree α β) (k : α) (rk : Option α)
    (l r : BTree α β) (ky : α) (hh lv : Nat) (b : β)
    (hf : findNode t k = some (.node l ky hh lv b r))
    (hl : l ≠ .nil) (hr : r ≠ .nil)
    (hs : List.Chain' (· < ·) (inorder t))
    (hd : bst_delete P fuel t k = some (res, rk)) :
    rk = some k ∧ inorder res = (inorder t).erase k ∧
    ∃ out, swapCore l ky hh lv b r = some out ∧ out.2.2.2.2 = k ∧
      swapTargetKey out = (inorder r).head? := by
  have hky : ky = k := by
    have := findNode_key t _ hf
    simp only [rootKey, Option.some.injEq] at this
    exact this
  subst hky
  obtain ⟨h1, h2, h3⟩ := delFind_two hP.2 fuel ky hl hr t [] t res rk hd hf
  refine ⟨h1, ?_, h3⟩
  rw [h2, delIn_erase t _ (List.chain'_iff_pairwise.mp hs) hf]
  rfl

/-- Companion witness for `delete_two_children_returns_requested_key` at a
concrete three-node tree under the no-op policy. -/
theorem delete_two_children_returns_requested_key_witness :
    (some 2 : Option ℕ) = some 2 ∧
    inorder (.node (.node .nil 1 1 1 () .nil) 3 2 1 () .nil : BTree ℕ Unit) =
      (inorder (.node (.node .nil 1 1 1 () .nil) 2 2 2 ()
        (.node .nil 3 1 1 () .nil) : BTree ℕ Unit)).erase 2 ∧
    ∃ out, swapCore (.node .nil 1 1 1 () .nil) 2 2 2 ()
        (.node (.nil : BTree ℕ Unit) 3 1 1 () .nil) = some out ∧
      out.2.2.2.2 = 2 ∧
      swapTargetKey out =
        (inorder (.node (.nil : BTree ℕ Unit) 3 1 1 () .nil)).head? := by
  have hres := delete_two_children_returns_requested_key
    (UnbalancedBalance (α := ℕ)) unbalanced_preservesInorder 3
    (.node (.node .nil 1 1 1 () .nil) 2 2 2 () (.node .nil 3 1 1 () .nil))
    (.node (.node .nil 1 1 1 () .nil) 3 2 1 () .nil) 2 (some 2)
    (.node .nil 1 1 1 () .nil) (.node .nil 3 1 1 () .nil) 2 2 2 ()
    (by decide) (by decide) (by decide)
    (by rw [List.chain'_iff_pairwise]; decide) (by decide)
  exact hres

/-- C6. Inserting a key that `bst_search` already finds is a silent no-op:
the exact original tree is returned, for every balancing policy (so no node
is added, no rebalance callback can have had any effect, and structure,
caches and in-order sequence are all unchanged). -/
theorem duplicate_insert_noop [LinearOrder α] (P : TreeBalance α β)
    (t : BTree α β) (k : α) (h : bst_search t k = true) :
    bst_insert P t k = some t := by
  have go : ∀ (u : BTree α β) (ctx : Ctx α β) (t0 : BTree α β),
      bst_search u k = true → insGo P k u ctx t0 = some t0 := by
    intro u
    induction u with
    | nil => intro ctx t0 h; simp [bst_search] at h
    | node l ky hh lv b r ihl ihr =>
        intro ctx t0 h
        rw [bst_search] at h
        rw [insGo]
        cases hc : cmp3 k ky with
        | eq => simp [hc]
        | lt => rw [hc] at h; simp only []; exact ihl _ _ h
        | gt => rw [hc] at h; simp only []; exact ihr _ _ h
  exact go t [] t h

/-- Companion witness for `duplicate_insert_noop` at a concrete tree. -/
theorem duplicate_insert_noop_witness :
    bst_insert (UnbalancedBalance (α := ℕ))
      (.node (.node .nil 1 1 1 () .nil) 2 2 2 () (.node .nil 3 1 1 () .nil)) 2 =
    some (.node (.node .nil 1 1 1 () .nil) 2 2 2 () (.node .nil 3 1 1 () .nil)) :=
  duplicate_insert_noop _ _ _ (by decide)

/-- C7. Deleting a key `bst_search` does not find returns the original tree
unchanged together with `none` ("not found"), for every policy and fuel —
in particular height, leaves and the in-order sequence are untouched. -/
theorem absent_delete_noop [LinearOrder α] (P : TreeBalance α β) (fuel : Nat)
    (t : BTree α β) (k : α) (h : bst_search t k = false) :
    bst_delete P fuel t k = some (t, none) := by
  have go : ∀ (u : BTree α β) (ctx : Ctx α β) (t0 : BTree α β),
      bst_search u k = false → delFind P fuel k u ctx t0 = some (t0, none) := by
    intro u
    induction u with
    | nil => intro ctx t0 _; rfl
    | node l ky hh lv b r ihl ihr =>
        intro ctx t0 h
        rw [bst_search] at h
        rw [delFind]
        cases hc : cmp3 k ky with
        | eq => rw [hc] at h; simp at h
        | lt => rw [hc] at h; simp only []; exact ihl _ _ h
        | gt => rw [hc] at h; simp only []; exact ihr _ _ h
  exact go t [] t h

/-- Companion witness for `absent_delete_noop` at a concrete tree. -/
theorem absent_delete_noop_witness :
    bst_delete (UnbalancedBalance (α := ℕ)) 3
      (.node (.node .nil 1 1 1 () .nil) 2 2 2 () (.node .nil 3 1 1 () .nil)) 5 =
    some ((.node (.node .nil 1 1 1 () .nil) 2 2 2 () (.node .nil 3 1 1 () .nil)), none) :=
  absent_delete_noop _ _ _ _ (by decide)

/-- C3. Counter-evidence for the Red-Black invariant claim: the public
sequence insert 40, insert 50, delete 40 on a `RedBlackBalance` tree ends
with the single node 50 colored `Red` — the root is not Black.  The engine
pops the root in place and returns immediately; `TreeNode::mark_root`
(which would call `adjust_root` to recolor) is never invoked by
`bst_insert`/`bst_delete`. -/
theorem rb_root_red_after_root_pop :
    applyOps (RedBlackBalance (α := ℕ)) 1
        [.ins 40, .ins 50, .del 40] .nil =
      some (.node .nil 50 1 1 .Red .nil) ∧
    colorOf (.node (.nil : BTree ℕ RBColor) 50 1 1 .Red .nil) ≠ .Black := by
  decide

/-- C9. Inserting 40, 50, 60 into a fresh AVL `Tree` of `src/avl.rs` yields
a tree of height 2 (the third insert triggers the single rotation). -/
theorem avl_insert_40_50_60_height2 :
    (Avl.avlInsertAll [40, 50, 60] (.nil : Avl.ATree ℕ)).map Avl.avlTreeHeight =
      some 2 := by
  decide

/-- C4 (amended). `bst_rotate p direction` fails exactly when the child `x`
along `direction` is absent; otherwise it returns `x` as the new subtree
root, with `x`'s child `v` along `reflect(direction)` re-attached as `p`'s
child along `direction`, `p`'s caches recomputed (`update`), and `p`
installed as `x`'s child along `reflect(direction)`.  `x`'s own cached
height/leaves are NOT recomputed — they stay whatever they were (the spec's
"recomputes p's and then x's caches bottom-up" overstates the source; the
engine refreshes `x` separately after the callback returns).  Re-pointing
`p`'s former parent at `x` is the unchanged zipper context. -/
theorem bst_rotate_spec (t : BTree α β) (d : TreePath) :
    (bst_rotate t d = none ↔ getChild t d = .nil) ∧
    (getChild t d ≠ .nil →
      bst_rotate t d = some (setChild (getChild t d) d.reflect
        (updateRoot (setChild t d (getChild (getChild t d) d.reflect))))) := by
  cases t with
  | nil => cases d <;> exact ⟨by simp [bst_rotate, getChild], fun h => absurd rfl h⟩
  | node l k h lv b r =>
      cases d with
      | Left =>
          cases l with
          | nil => exact ⟨by simp [bst_rotate, getChild], fun h => absurd rfl h⟩
          | node xl xk xh xlv xb xr =>
              refine ⟨by simp [bst_rotate, getChild], fun _ => ?_⟩
              simp [bst_rotate, getChild, TreePath.reflect]
      | Right =>
          cases r with
          | nil => exact ⟨by simp [bst_rotate, getChild], fun h => absurd rfl h⟩
          | node xl xk xh xlv xb xr =>
              refine ⟨by simp [bst_rotate, getChild], fun _ => ?_⟩
              simp [bst_rotate, getChild, TreePath.reflect]

/-- Companion witness for `bst_rotate_spec`: the rotation equation at a
concrete two-node tree. -/
theorem bst_rotate_spec_witness :
    bst_rotate (.node (.node .nil 1 1 1 () .nil) 2 2 1 () .nil)
        TreePath.Left =
      some (setChild
        (getChild (.node (.node .nil 1 1 1 () (.nil : BTree ℕ Unit)) 2 2 1 () .nil) TreePath.Left)
        TreePath.Left.reflect
        (updateRoot (setChild (.node (.node .nil 1 1 1 () .nil) 2 2 1 () .nil) TreePath.Left
          (getChild (getChild (.node (.node .nil 1 1 1 () (.nil : BTree ℕ Unit)) 2 2 1 () .nil) TreePath.Left)
            TreePath.Left.reflect)))) :=
  (bst_rotate_spec _ _).2 (by decide)

/-- C4, counterexample to the claim as stated: after
`rotate(p, Left)` on `p = node(x = leaf 1, key 2)` the returned `x` keeps
its stale cached height 1, which is NOT `1 + max(child heights)` (its new
child `p` has height 1, so the recomputed value would be 2): `bst_rotate`
does not recompute `x`'s caches. -/
theorem bst_rotate_stale_x_cache :
    bst_rotate (.node (.node .nil 1 1 1 () .nil) 2 2 1 () (.nil : BTree ℕ Unit))
        TreePath.Left =
      some (.node .nil 1 1 1 () (.node .nil 2 1 1 () .nil)) ∧
    cachedHeight (.node (.nil : BTree ℕ Unit) 1 1 1 () (.node .nil 2 1 1 () .nil)) ≠
      max (cachedHeight ((.nil : BTree ℕ Unit)))
        (cachedHeight (.node (.nil : BTree ℕ Unit) 2 1 1 () .nil)) + 1 := by
  decide

/-- C8, counterexample to the claim as stated: during INSERT's up-traversal
a `Child(direction)` continuation is `panic!("Should not happen!")` — the
operation aborts (returns `none`) instead of re-anchoring.  `ChildPolicy`'s
`rebalance_insert` answers `Child(Left)`; inserting 0 under a grandparent
triggers the loop and the panic. -/
theorem insert_loop_child_panics :
    bst_insert (ChildPolicy (α := ℕ))
      (.node (.node .nil 1 1 1 () .nil) 2 2 1 () .nil) 0 = none := by
  decide

/-- C8 (amended). During DELETE's up-traversal a `Child(direction)`
continuation re-anchors the loop at that child of the (freshly updated)
current node — pushing the node as a new ancestor frame — and continues
rebalancing there with `xpath = direction`; the operation is not aborted
(only an absent child panics).  In insert's loop the same continuation
panics (see the counterexample). -/
theorem delete_loop_child_reanchors [LinearOrder α] (P : TreeBalance α β)
    (fuel : Nat) (r : BTree α β) (xp d : TreePath) (bal : β) (ctx : Ctx α β)
    (cur : BTree α β) (f : Frame α β)
    (hcb : P.rebalance_delete ctx.isEmpty r xp bal = some (cur, .Child d))
    (hf : frameAt (updateRoot cur) d = some f)
    (hne : getChild (updateRoot cur) d ≠ .nil) :
    deleteLoop P (fuel + 1) r xp bal ctx =
      deleteLoop P fuel (getChild (updateRoot cur) d) d bal (f :: ctx) := by
  simp only [deleteLoop, hcb]
  cases hu : updateRoot cur with
  | nil => rw [hu] at hf; simp [frameAt] at hf
  | node l k h lv b r2 =>
      rw [hu] at hf hne
      cases d with
      | Left =>
          cases l with
          | nil => simp [getChild] at hne
          | node a1 a2 a3 a4 a5 a6 =>
              simp only [frameAt, Option.some.injEq] at hf
              simp [getChild, ← hf]
      | Right =>
          cases r2 with
          | nil => simp [getChild] at hne
          | node a1 a2 a3 a4 a5 a6 =>
              simp only [frameAt, Option.some.injEq] at hf
              simp [getChild, ← hf]

/-- Companion witness for `delete_loop_child_reanchors`: a concrete policy
answering `Child(Right)` makes one loop step re-anchor at the right child. -/
theorem delete_loop_child_reanchors_witness :
    deleteLoop (ChildPolicy (α := ℕ)) 1
        (.node .nil 1 2 1 () (.node .nil 2 1 1 () .nil)) .Left () [] =
      deleteLoop (ChildPolicy (α := ℕ)) 0
        (.node .nil 2 1 1 () .nil) .Right ()
        [⟨.Right, 1, 2, 1, (), .nil⟩] :=
  delete_loop_child_reanchors _ 0 _ _ _ _ _
    (.node .nil 1 2 1 () (.node .nil 2 1 1 () .nil)) _ rfl rfl (by decide)

end BST

end Project2
